import Mathlib

/-!
Verification of the MemSync virtual-memory manager (Python sources
src/page_replacement.py and src/virtual_memory.py) against its
natural-language specification.

The Python code is shallowly embedded: classes become structures, methods
become pure functions returning the updated state, Python dicts become
association lists (or total functions with default 0 where every read uses
.get(key, 0)), and raised exceptions become explicit error results carrying
the partially mutated object state.  Wall-clock fields (perf_counter based
recovery times) and logging are omitted: no claim mentions them.
-/

namespace MemSync

/-! ### Association-list helpers (Python dict operations on integer keys) -/

def alGet {α : Type} (l : List (Nat × α)) (k : Nat) : Option α :=
  match l with
  | [] => none
  | (k2, v) :: rest => if k2 = k then some v else alGet rest k

/-- Python dict item assignment: replace the value of an existing key,
otherwise append the new key at the end (dict insertion order). -/
def alSet {α : Type} (l : List (Nat × α)) (k : Nat) (v : α) : List (Nat × α) :=
  match l with
  | [] => [(k, v)]
  | (k2, v2) :: rest => if k2 = k then (k, v) :: rest else (k2, v2) :: alSet rest k v

/-- Python del d[k]: removes the (unique) binding of k. -/
def alDel {α : Type} (l : List (Nat × α)) (k : Nat) : List (Nat × α) :=
  match l with
  | [] => []
  | (k2, v2) :: rest => if k2 = k then rest else (k2, v2) :: alDel rest k

/-- Python list.index wrapped in try/except ValueError:
index of the first occurrence, none when absent. -/
def idxOf? (x : Nat) : List Nat → Option Nat
  | [] => none
  | p :: rest => if p = x then some 0 else (idxOf? x rest).map (· + 1)

/-- Order on next-use distances where none stands for "never used again"
(treated as infinitely far). -/
def nuLe (a b : Option Nat) : Prop :=
  match b with
  | none => True
  | some n =>
    match a with
    | none => False
    | some m => m ≤ n

instance (a b : Option Nat) : Decidable (nuLe a b) :=
  match a, b with
  | _, none => isTrue trivial
  | none, some _ => isFalse (fun h => h)
  | some m, some n => inferInstanceAs (Decidable (m ≤ n))

/-- Pointwise update of a dict modelled as a total function. -/
def fset (f : Nat → Nat) (k v : Nat) : Nat → Nat := fun x => if x = k then v else f x

/-! ### page_replacement.py -/

/-- Statistics dict returned by PageReplacementAlgorithm.get_stats.
Python float arithmetic is modelled as exact rational arithmetic. -/
structure PolicyStats where
  page_faults : Nat
  page_hits : Nat
  total_accesses : Nat
  hit_rate : ℚ
deriving Repr, DecidableEq

/-- class FIFO(PageReplacementAlgorithm) -/
structure FIFO where
  frame_count : Nat
  frames : List Nat
  page_faults : Nat
  page_hits : Nat
  queue : List Nat
deriving Repr, DecidableEq

def FIFO.init (frame_count : Nat) : FIFO :=
  { frame_count := frame_count, frames := [], page_faults := 0, page_hits := 0, queue := [] }

def FIFO.reset (s : FIFO) : FIFO := FIFO.init s.frame_count

/-- FIFO.access_page.  The recovery-time float is omitted.  The empty-queue
branch corresponds to deque.popleft raising IndexError in Python; it is
unreachable whenever frame_count ≥ 1 (the queue then mirrors the non-empty
frame list). -/
def FIFO.access_page (s : FIFO) (page_number : Nat) (_future_sequence : List Nat) :
    FIFO × Bool × Option Nat :=
  if page_number ∈ s.frames then
    ({ s with page_hits := s.page_hits + 1 }, false, none)
  else if s.frames.length < s.frame_count then
    ({ s with page_faults := s.page_faults + 1,
              frames := s.frames ++ [page_number],
              queue := s.queue ++ [page_number] }, true, none)
  else
    match s.queue with
    | [] =>
      ({ s with page_faults := s.page_faults + 1,
                frames := s.frames ++ [page_number],
                queue := [page_number] }, true, none)
    | replaced :: rest =>
      ({ s with page_faults := s.page_faults + 1,
                frames := (s.frames.erase replaced) ++ [page_number],
                queue := rest ++ [page_number] }, true, some replaced)

/-- class LRU(PageReplacementAlgorithm).  The OrderedDict page_order is
modelled by its key list (insertion order, least recently used first);
the stored values (True) carry no information. -/
structure LRU where
  frame_count : Nat
  frames : List Nat
  page_faults : Nat
  page_hits : Nat
  page_order : List Nat
deriving Repr, DecidableEq

def LRU.init (frame_count : Nat) : LRU :=
  { frame_count := frame_count, frames := [], page_faults := 0, page_hits := 0, page_order := [] }

def LRU.reset (s : LRU) : LRU := LRU.init s.frame_count

/-- LRU.access_page.  move_to_end is erase-then-append; next(iter(...)) is
the head of the key list.  The empty page_order branch corresponds to
next(iter(...)) raising StopIteration; unreachable when frame_count ≥ 1. -/
def LRU.access_page (s : LRU) (page_number : Nat) (_future_sequence : List Nat) :
    LRU × Bool × Option Nat :=
  if page_number ∈ s.frames then
    ({ s with page_hits := s.page_hits + 1,
              page_order := (s.page_order.erase page_number) ++ [page_number] }, false, none)
  else if s.frames.length < s.frame_count then
    ({ s with page_faults := s.page_faults + 1,
              frames := s.frames ++ [page_number],
              page_order := s.page_order ++ [page_number] }, true, none)
  else
    match s.page_order with
    | [] =>
      ({ s with page_faults := s.page_faults + 1,
                frames := s.frames ++ [page_number],
                page_order := [page_number] }, true, none)
    | lru_page :: rest =>
      ({ s with page_faults := s.page_faults + 1,
                frames := (s.frames.erase lru_page) ++ [page_number],
                page_order := rest ++ [page_number] }, true, some lru_page)

/-- class Optimal(PageReplacementAlgorithm) -/
structure Optimal where
  frame_count : Nat
  frames : List Nat
  page_faults : Nat
  page_hits : Nat
deriving Repr, DecidableEq

def Optimal.init (frame_count : Nat) : Optimal :=
  { frame_count := frame_count, frames := [], page_faults := 0, page_hits := 0 }

def Optimal.reset (s : Optimal) : Optimal := Optimal.init s.frame_count

/-- The for-loop of Optimal.access_page selecting the page to replace:
farthest is the farthest_use accumulator (starts at -1), cand the
page_to_replace accumulator; a page absent from future_sequence
(list.index raising ValueError) breaks out of the loop immediately. -/
def Optimal.selectAux (future : List Nat) : List Nat → Int → Nat → Nat
  | [], _, cand => cand
  | page :: rest, farthest, cand =>
    match idxOf? page future with
    | none => page
    | some next_use =>
      if (next_use : Int) > farthest then Optimal.selectAux future rest (next_use : Int) page
      else Optimal.selectAux future rest farthest cand

def Optimal.select (future frames : List Nat) : Nat :=
  Optimal.selectAux future frames (-1) frames.headI

/-- Optimal.access_page.  The frames.pop(0) fallback on an empty frame list
would raise IndexError in Python; unreachable when frame_count ≥ 1. -/
def Optimal.access_page (s : Optimal) (page_number : Nat) (future_sequence : List Nat) :
    Optimal × Bool × Option Nat :=
  if page_number ∈ s.frames then
    ({ s with page_hits := s.page_hits + 1 }, false, none)
  else if s.frames.length < s.frame_count then
    ({ s with page_faults := s.page_faults + 1,
              frames := s.frames ++ [page_number] }, true, none)
  else if future_sequence ≠ [] then
    let page_to_replace := Optimal.select future_sequence s.frames
    ({ s with page_faults := s.page_faults + 1,
              frames := (s.frames.erase page_to_replace) ++ [page_number] },
     true, some page_to_replace)
  else
    ({ s with page_faults := s.page_faults + 1,
              frames := s.frames.tail ++ [page_number] }, true, some s.frames.headI)

/-- class LFU(PageReplacementAlgorithm).  The frequency and last_used dicts
are modelled as total functions with default 0, matching every read
(.get(page, 0)); del followed by a fresh .get(_, 0) is set-to-0. -/
structure LFU where
  frame_count : Nat
  frames : List Nat
  page_faults : Nat
  page_hits : Nat
  frequency : Nat → Nat
  time_counter : Nat
  last_used : Nat → Nat

def LFU.init (frame_count : Nat) : LFU :=
  { frame_count := frame_count, frames := [], page_faults := 0, page_hits := 0,
    frequency := fun _ => 0, time_counter := 0, last_used := fun _ => 0 }

def LFU.reset (s : LFU) : LFU := LFU.init s.frame_count

/-- The for-loop of LFU.access_page selecting the least frequently used page
(ties broken by oldest last-access tick).  best is (page, freq, last_time);
the accumulator is seeded from the first frame, which the Python loop always
prefers over the float-inf initial values. -/
def LFU.selectAux (frequency last_used : Nat → Nat) : List Nat → Nat × Nat × Nat → Nat
  | [], best => best.1
  | page :: rest, best =>
    let freq := frequency page
    let last_time := last_used page
    if freq < best.2.1 ∨ (freq = best.2.1 ∧ last_time < best.2.2) then
      LFU.selectAux frequency last_used rest (page, freq, last_time)
    else
      LFU.selectAux frequency last_used rest best

/-- lfu_page of LFU.access_page.  For empty frames Python would leave
lfu_page = None and frames.remove(None) would raise ValueError; unreachable
when frame_count ≥ 1. -/
def LFU.select (frequency last_used : Nat → Nat) (frames : List Nat) : Nat :=
  match frames with
  | [] => 0
  | page :: rest => LFU.selectAux frequency last_used rest (page, frequency page, last_used page)

def LFU.access_page (s : LFU) (page_number : Nat) (_future_sequence : List Nat) :
    LFU × Bool × Option Nat :=
  let t := s.time_counter + 1
  if page_number ∈ s.frames then
    ({ s with time_counter := t,
              page_hits := s.page_hits + 1,
              frequency := fset s.frequency page_number (s.frequency page_number + 1),
              last_used := fset s.last_used page_number t }, false, none)
  else if s.frames.length < s.frame_count then
    ({ s with time_counter := t,
              page_faults := s.page_faults + 1,
              frames := s.frames ++ [page_number],
              frequency := fset s.frequency page_number (s.frequency page_number + 1),
              last_used := fset s.last_used page_number t }, true, none)
  else
    let lfu_page := LFU.select s.frequency s.last_used s.frames
    let f1 := fset s.frequency lfu_page 0
    let l1 := fset s.last_used lfu_page 0
    ({ s with time_counter := t,
              page_faults := s.page_faults + 1,
              frames := (s.frames.erase lfu_page) ++ [page_number],
              frequency := fset f1 page_number (f1 page_number + 1),
              last_used := fset l1 page_number t }, true, some lfu_page)

/-- Tagged union over the four algorithm classes. -/
inductive Policy where
  | fifo : FIFO → Policy
  | lru : LRU → Policy
  | optimal : Optimal → Policy
  | lfu : LFU → Policy

def Policy.access_page : Policy → Nat → List Nat → Policy × Bool × Option Nat
  | .fifo s, p, fut => let r := s.access_page p fut; (.fifo r.1, r.2)
  | .lru s, p, fut => let r := s.access_page p fut; (.lru r.1, r.2)
  | .optimal s, p, fut => let r := s.access_page p fut; (.optimal r.1, r.2)
  | .lfu s, p, fut => let r := s.access_page p fut; (.lfu r.1, r.2)

def Policy.reset : Policy → Policy
  | .fifo s => .fifo s.reset
  | .lru s => .lru s.reset
  | .optimal s => .optimal s.reset
  | .lfu s => .lfu s.reset

def Policy.frames : Policy → List Nat
  | .fifo s => s.frames
  | .lru s => s.frames
  | .optimal s => s.frames
  | .lfu s => s.frames

def Policy.frame_count : Policy → Nat
  | .fifo s => s.frame_count
  | .lru s => s.frame_count
  | .optimal s => s.frame_count
  | .lfu s => s.frame_count

def Policy.page_faults : Policy → Nat
  | .fifo s => s.page_faults
  | .lru s => s.page_faults
  | .optimal s => s.page_faults
  | .lfu s => s.page_faults

def Policy.page_hits : Policy → Nat
  | .fifo s => s.page_hits
  | .lru s => s.page_hits
  | .optimal s => s.page_hits
  | .lfu s => s.page_hits

/-- PageReplacementAlgorithm.get_stats (shared base-class method). -/
def Policy.get_stats (P : Policy) : PolicyStats :=
  let total_accesses := P.page_faults + P.page_hits
  { page_faults := P.page_faults
    page_hits := P.page_hits
    total_accesses := total_accesses
    hit_rate := if total_accesses > 0 then (P.page_hits : ℚ) / (total_accesses : ℚ) * 100 else 0 }

/-- def get_algorithm(algorithm_name, frame_count): factory raising ValueError
(modelled as none) on an unknown name. -/
def get_algorithm (algorithm_name : String) (frame_count : Nat) : Option Policy :=
  if algorithm_name = "FIFO" then some (.fifo (FIFO.init frame_count))
  else if algorithm_name = "LRU" then some (.lru (LRU.init frame_count))
  else if algorithm_name = "Optimal" then some (.optimal (Optimal.init frame_count))
  else if algorithm_name = "LFU" then some (.lfu (LFU.init frame_count))
  else none

/-! ### Policy runners -/

/-- Run a policy over a list of (page, lookahead) resolve calls. -/
def runPolicy (P : Policy) : List (Nat × List Nat) → Policy
  | [] => P
  | (p, look) :: rest => runPolicy (P.access_page p look).1 rest

/-- Run a policy over a list of resolve calls, also collecting the
(is_fault, replaced) outcome of every call, in order. -/
def runPolicyTrace (P : Policy) : List (Nat × List Nat) → Policy × List (Bool × Option Nat)
  | [] => (P, [])
  | (p, look) :: rest =>
    let r := P.access_page p look
    let t := runPolicyTrace r.1 rest
    (t.1, (r.2.1, r.2.2) :: t.2)

/-- Run a policy over an access sequence, handing each access the full
remaining future as its lookahead. -/
def runFuture (P : Policy) : List Nat → Policy
  | [] => P
  | p :: rest => runFuture (P.access_page p rest).1 rest

/-- Minimum of a list of naturals (0 for the empty list). -/
def minD : List Nat → Nat
  | [] => 0
  | [x] => x
  | x :: xs => min x (minD xs)

/-- The offline-optimal fault count from cache C on the remaining access
sequence at capacity c: a hit costs nothing, a fault below capacity admits,
and a fault at capacity takes the cheapest possible eviction.  This is the
specification-side yardstick against which the Optimal policy of the
source is measured (claim C4). -/
def opt (c : Nat) : List Nat → Finset Nat → Nat
  | [], _ => 0
  | p :: σ, C =>
    if p ∈ C then opt c σ C
    else if C.card < c then 1 + opt c σ (insert p C)
    else 1 + minD ((C.sort (· ≤ ·)).map fun q => opt c σ (insert p (C.erase q)))
termination_by σ _ => σ.length
decreasing_by all_goals simp [List.length_cons]

/-! ### virtual_memory.py -/

/-- utils.calculate_pages -/
def calculate_pages (memory_size_kb page_size_kb : Nat) : Nat :=
  (memory_size_kb + page_size_kb - 1) / page_size_kb

/-- The fault notification handed to the registered page_fault_callback.
Only the state-determined fields are kept (process_name, recovery time and
the derived fault totals/rate carry no extra state information). -/
structure FaultEvent where
  pid : Nat
  page_num : Nat
  frame_num : Nat
  replaced_page : Option Nat
deriving Repr, DecidableEq

/-- nth element of a list (Python indexing, as an Option). -/
def nth {α : Type} : List α → Nat → Option α
  | [], _ => none
  | x :: _, 0 => some x
  | _ :: rest, n + 1 => nth rest n

/-- Python indexed assignment lst[i] = v (out of range: unreachable in the
uses below whenever frame_count ≥ 1; modelled as a no-op). -/
def setIdx {α : Type} : List α → Nat → α → List α
  | [], _, _ => []
  | _ :: rest, 0, v => v :: rest
  | x :: rest, n + 1, v => x :: setIdx rest n v

/-- Index of the first element satisfying q (the enumerate-scan loops of
_allocate_frame and remove_process). -/
def firstIdx? {α : Type} (q : α → Bool) : List α → Option Nat
  | [] => none
  | x :: rest => if q x then some 0 else (firstIdx? q rest).map (· + 1)

/-- The scan of _allocate_frame locating the frame whose occupant has page
number rp: returns (frame index, occupant pid, occupant page). -/
def findFrameWithPage (rp : Nat) : List (Option (Nat × Nat)) → Option (Nat × Nat × Nat)
  | [] => none
  | some (p, pg) :: rest =>
    if pg = rp then some (0, p, pg)
    else (findFrameWithPage rp rest).map (fun r => (r.1 + 1, r.2))
  | none :: rest => (findFrameWithPage rp rest).map (fun r => (r.1 + 1, r.2))

/-- class VirtualMemoryManager.  processes keeps only the registered pids:
the ProcessInfo payload (display name, the randomly generated page_sequence)
never feeds back into the table logic covered by the claims.  The lock,
logger and simulation thread fields are concurrency scaffolding with no
state of their own; the callback is modelled by the growing events list. -/
structure VMState where
  page_size_kb : Nat
  frame_count : Nat
  algorithm_name : String
  algorithm : Policy
  processes : List Nat
  page_table : List (Nat × List (Nat × Option Nat))
  frame_table : List (Option (Nat × Nat))
  total_page_faults : Nat
  total_page_accesses : Nat
  events : List FaultEvent

/-- VirtualMemoryManager.__init__ (none when get_algorithm raises). -/
def VMState.init (page_size_kb frame_count : Nat) (algorithm_name : String) : Option VMState :=
  (get_algorithm algorithm_name frame_count).map fun alg =>
    { page_size_kb := page_size_kb, frame_count := frame_count,
      algorithm_name := algorithm_name, algorithm := alg,
      processes := [], page_table := [],
      frame_table := List.replicate frame_count none,
      total_page_faults := 0, total_page_accesses := 0, events := [] }

/-- The all-None page table built on registration:
{page_num: None for page_num in range(pages_needed)}. -/
def freshTable (pages_needed : Nat) : List (Nat × Option Nat) :=
  (List.range pages_needed).map (fun i => (i, (none : Option Nat)))

/-- VirtualMemoryManager.add_process (pid and memory_kb of the ProcessInfo). -/
def VMState.add_process (s : VMState) (pid memory_kb : Nat) : VMState :=
  let pages_needed := calculate_pages memory_kb s.page_size_kb
  { s with page_table := alSet s.page_table pid (freshTable pages_needed),
           processes := if pid ∈ s.processes then s.processes else s.processes ++ [pid] }

/-- VirtualMemoryManager.remove_process -/
def VMState.remove_process (s : VMState) (pid : Nat) : VMState :=
  if pid ∈ s.processes then
    { s with
      frame_table := s.frame_table.map (fun c =>
        match c with
        | some (p, page) => if p = pid then none else some (p, page)
        | none => none),
      processes := s.processes.erase pid,
      page_table := alDel s.page_table pid }
  else s

/-- Result of a call that can raise: error carries the exception message and
the object state including any mutations made before the raise. -/
inductive CallResult (σ : Type) where
  | ok : σ → CallResult σ
  | error : String → σ → CallResult σ

def CallResult.state {σ : Type} : CallResult σ → σ
  | .ok s => s
  | .error _ s => s

/-- VirtualMemoryManager.change_algorithm.  Note the source assigns
self.algorithm_name before calling get_algorithm, so on an unknown name the
stored name is already mutated when ValueError propagates. -/
def VMState.change_algorithm (s : VMState) (algorithm_name : String) : CallResult VMState :=
  let s1 := { s with algorithm_name := algorithm_name }
  match get_algorithm algorithm_name s.frame_count with
  | none => .error ("Unknown algorithm: " ++ algorithm_name) s1
  | some alg =>
    .ok { s1 with
          algorithm := alg.reset,
          frame_table := List.replicate s.frame_count none,
          page_table := s1.page_table.map (fun e =>
            (e.1, e.2.map (fun kv => (kv.1, (none : Option Nat))))) }

/-- VirtualMemoryManager.change_frames.  Note the source assigns
self.frame_count before calling get_algorithm, and only extends or
truncates the frame table: existing occupants are kept. -/
def VMState.change_frames (s : VMState) (new_frame_count : Nat) : CallResult VMState :=
  let s1 := { s with frame_count := new_frame_count }
  match get_algorithm s.algorithm_name new_frame_count with
  | none => .error ("Unknown algorithm: " ++ s.algorithm_name) s1
  | some alg =>
    .ok { s1 with
          algorithm := alg,
          frame_table :=
            if s.frame_table.length < new_frame_count then
              s.frame_table ++ List.replicate (new_frame_count - s.frame_table.length) none
            else s.frame_table.take new_frame_count }

/-- VirtualMemoryManager._allocate_frame: returns the new frame table, the
new page table (the evicted occupant's entry cleared) and the frame index.
The frame-0 fallback mirrors the source's last-resort path. -/
def VMState._allocate_frame (s : VMState) (pid page_num : Nat) (replaced_page : Option Nat) :
    List (Option (Nat × Nat)) × List (Nat × List (Nat × Option Nat)) × Nat :=
  match firstIdx? Option.isNone s.frame_table with
  | some idx => (setIdx s.frame_table idx (some (pid, page_num)), s.page_table, idx)
  | none =>
    match replaced_page with
    | some rp =>
      match findFrameWithPage rp s.frame_table with
      | some (idx, old_pid, old_page) =>
        let pt :=
          match alGet s.page_table old_pid with
          | some tbl => alSet s.page_table old_pid (alSet tbl old_page none)
          | none => s.page_table
        (setIdx s.frame_table idx (some (pid, page_num)), pt, idx)
      | none => (setIdx s.frame_table 0 (some (pid, page_num)), s.page_table, 0)
    | none => (setIdx s.frame_table 0 (some (pid, page_num)), s.page_table, 0)

/-- VirtualMemoryManager._access_page.  The recovery-time sample list is
omitted (wall-clock data); the callback invocation is modelled by appending
a FaultEvent. -/
def VMState._access_page (s : VMState) (pid page_num : Nat) (future_sequence : List Nat) :
    VMState :=
  if pid ∈ s.processes then
    let s0 := { s with total_page_accesses := s.total_page_accesses + 1 }
    let tbl := (alGet s0.page_table pid).getD []
    match (alGet tbl page_num).getD none with
    | some _ =>
      { s0 with algorithm := (s0.algorithm.access_page page_num (future_sequence.take 50)).1 }
    | none =>
      let r := s0.algorithm.access_page page_num (future_sequence.take 50)
      let s1 := { s0 with algorithm := r.1 }
      if r.2.1 then
        let s2 := { s1 with total_page_faults := s1.total_page_faults + 1 }
        let alloc := s2._allocate_frame pid page_num r.2.2
        let s3 := { s2 with frame_table := alloc.1, page_table := alloc.2.1 }
        let tbl3 := (alGet s3.page_table pid).getD []
        let s4 := { s3 with
          page_table := alSet s3.page_table pid (alSet tbl3 page_num (some alloc.2.2)) }
        { s4 with events := s4.events ++ [⟨pid, page_num, alloc.2.2, r.2.2⟩] }
      else s1
  else s

/-! ### Public-operation traces -/

/-- The Memory Manager's public operations. -/
inductive MgrOp where
  | registerP (pid memory_kb : Nat)
  | unregister (pid : Nat)
  | setPolicy (algorithm_name : String)
  | setFrames (n : Nat)
  | access (pid page : Nat) (lookahead : List Nat)

/-- One public call; a raising call leaves the partially mutated state. -/
def VMState.stepOp (s : VMState) : MgrOp → VMState
  | .registerP pid mem => s.add_process pid mem
  | .unregister pid => s.remove_process pid
  | .setPolicy nm => (s.change_algorithm nm).state
  | .setFrames n => (s.change_frames n).state
  | .access pid page look => s._access_page pid page look

def VMState.runOps (s : VMState) (ops : List MgrOp) : VMState :=
  ops.foldl VMState.stepOp s

/-- Operations other than unregisterProcess and setFrameCount. -/
def MgrOp.safe : MgrOp → Prop
  | .unregister _ => False
  | .setFrames _ => False
  | _ => True

instance : ∀ op : MgrOp, Decidable op.safe
  | .registerP _ _ => isTrue trivial
  | .unregister _ => isFalse (fun h => h)
  | .setPolicy _ => isTrue trivial
  | .setFrames _ => isFalse (fun h => h)
  | .access _ _ _ => isTrue trivial

/-- pageTable[pid].get(page_num): the page-table read used by the claims. -/
def pageTableGet (s : VMState) (pid page : Nat) : Option Nat :=
  (alGet ((alGet s.page_table pid).getD []) page).getD none

/-- The bidirectional page-table/frame-table consistency property of the
specification: a mapped entry points at an existing frame whose occupant is
exactly that (pid, page). -/
def Consistent (s : VMState) : Prop :=
  ∀ pid page f, pageTableGet s pid page = some f →
    f < s.frame_table.length ∧ nth s.frame_table f = some (some (pid, page))

/-- Page numbers of the occupied frames of a frame table, in frame order. -/
def framePagesL (ft : List (Option (Nat × Nat))) : List Nat :=
  ft.filterMap (fun c => c.map Prod.snd)

/-- Page numbers of the occupied frames, in frame order. -/
def framePages (s : VMState) : List Nat :=
  framePagesL s.frame_table

/-- Auxiliary per-policy invariant: the shadow structures (FIFO queue, LRU
recency order) track the frame list, the frame list has no duplicates, and
residency is bounded by the capacity. -/
def PolicyInv : Policy → Prop
  | .fifo s => s.queue = s.frames ∧ s.frames.Nodup ∧ s.frames.length ≤ s.frame_count
  | .lru s => (∀ x, x ∈ s.page_order ↔ x ∈ s.frames) ∧ s.page_order.Nodup ∧
      s.frames.Nodup ∧ s.frames.length ≤ s.frame_count
  | .optimal s => s.frames.Nodup ∧ s.frames.length ≤ s.frame_count
  | .lfu s => s.frames.Nodup ∧ s.frames.length ≤ s.frame_count

/-- The full inductive invariant tying the Memory Manager tables to the
policy residency. -/
structure MgrInv (s : VMState) : Prop where
  consistent : Consistent s
  perm : List.Perm (framePages s) s.algorithm.frames
  pinv : PolicyInv s.algorithm
  cap : s.algorithm.frame_count = s.frame_count
  flen : s.frame_table.length = s.frame_count
  fpos : 1 ≤ s.frame_count
  sync : ∀ pid, pid ∈ s.processes → (alGet s.page_table pid).isSome = true

/-- A reachable concrete manager: page size 1KB, 3 frames, FIFO. -/
def vm0 : VMState :=
  { page_size_kb := 1, frame_count := 3, algorithm_name := "FIFO",
    algorithm := .fifo (FIFO.init 3), processes := [], page_table := [],
    frame_table := [none, none, none],
    total_page_faults := 0, total_page_accesses := 0, events := [] }

/-- A trace in which unregisterProcess desynchronises the policy residency
from the frame table, later driving _allocate_frame into the frame-0
fallback, which clobbers frame 0 without clearing its occupant's entry. -/
def c1trace1 : List MgrOp :=
  [.registerP 1 10, .registerP 2 10, .access 1 5 [], .access 2 1 [], .access 2 2 [],
   .unregister 2, .access 1 7 [], .access 1 8 [], .access 1 9 []]

/-- A trace in which setFrameCount truncates an occupied frame table,
leaving a page-table entry pointing at a no-longer-existing frame. -/
def c1trace2 : List MgrOp :=
  [.registerP 1 10, .access 1 0 [], .access 1 1 [], .setFrames 1]

/-- The reachable state in which pid 10 holds page 0 resident while pid 30
is registered with its page 0 unmapped. -/
def c9before : VMState := vm0.runOps [.registerP 10 5, .registerP 30 5, .access 10 0 []]

/-- The state after pid 30 accesses its (unmapped) page 0. -/
def c9after : VMState := c9before._access_page 30 0 []

/-! ### Basic lemmas about the dict/list helpers -/

theorem alGet_alDel_ne {α : Type} (l : List (Nat × α)) (k k2 : Nat) (h : k2 ≠ k) :
    alGet (alDel l k) k2 = alGet l k2 := by
  induction l with
  | nil => rfl
  | cons hd tl ih =>
    obtain ⟨k3, v⟩ := hd
    by_cases h3 : k3 = k
    · simp only [alDel, if_pos h3, alGet]
      rw [if_neg (by omega)]
    · simp only [alDel, if_neg h3, alGet]
      by_cases h2 : k3 = k2
      · rw [if_pos h2, if_pos h2]
      · rw [if_neg h2, if_neg h2, ih]

theorem alGet_mapVal {α β : Type} (g : α → β) (l : List (Nat × α)) (k : Nat) :
    alGet (l.map (fun kv => (kv.1, g kv.2))) k = (alGet l k).map g := by
  induction l with
  | nil => rfl
  | cons hd tl ih =>
    obtain ⟨k3, v⟩ := hd
    by_cases h3 : k3 = k
    · simp [alGet, h3]
    · simp [alGet, h3, ih]

theorem alGet_alSet_self {α : Type} (l : List (Nat × α)) (k : Nat) (v : α) :
    alGet (alSet l k v) k = some v := by
  induction l with
  | nil => simp [alSet, alGet]
  | cons hd tl ih =>
    obtain ⟨k3, v3⟩ := hd
    by_cases h3 : k3 = k
    · simp [alSet, h3, alGet]
    · simp [alSet, h3, alGet, ih]

theorem alGet_alSet_ne {α : Type} (l : List (Nat × α)) (k k2 : Nat) (v : α) (h : k2 ≠ k) :
    alGet (alSet l k v) k2 = alGet l k2 := by
  induction l with
  | nil =>
    simp only [alSet, alGet]
    rw [if_neg (by omega)]
  | cons hd tl ih =>
    obtain ⟨k3, v3⟩ := hd
    by_cases h3 : k3 = k
    · simp only [alSet, if_pos h3, alGet]
      rw [if_neg (by omega), if_neg (by omega)]
    · simp only [alSet, if_neg h3, alGet]
      by_cases h2 : k3 = k2
      · rw [if_pos h2, if_pos h2]
      · rw [if_neg h2, if_neg h2, ih]

theorem alGet_clear {α : Type} (l : List (Nat × α)) (k : Nat) :
    (alGet (l.map (fun kv => (kv.1, (none : Option Nat)))) k).getD none = none := by
  induction l with
  | nil => rfl
  | cons hd tl ih =>
    obtain ⟨k3, v⟩ := hd
    by_cases h3 : k3 = k
    · simp [alGet, h3]
    · simp only [List.map_cons, alGet, if_neg h3]
      exact ih

theorem nth_replicate {α : Type} (a : α) :
    ∀ n i, i < n → nth (List.replicate n a) i = some a := by
  intro n
  induction n with
  | zero => intro i hi; omega
  | succ m ih =>
    intro i hi
    cases i with
    | zero => simp [List.replicate, nth]
    | succ j => simpa [List.replicate, nth] using ih j (by omega)

/-! ### List helpers for the policy proofs -/

theorem headI_mem {l : List Nat} (h : l ≠ []) : l.headI ∈ l := by
  cases l with
  | nil => exact absurd rfl h
  | cons a t => exact List.mem_cons_self a t

theorem tail_eq_erase_headI {l : List Nat} (h : l ≠ []) : l.tail = l.erase l.headI := by
  cases l with
  | nil => exact absurd rfl h
  | cons a t => simp [List.erase_cons_head]

theorem nodup_snoc {l : List Nat} {a : Nat} (h : l.Nodup) (ha : a ∉ l) :
    (l ++ [a]).Nodup := by
  induction l with
  | nil => simp
  | cons b t ih =>
    simp only [List.nodup_cons] at h
    simp only [List.cons_append, List.nodup_cons, List.mem_append, List.mem_singleton]
    constructor
    · rintro (hb | rfl)
      · exact h.1 hb
      · exact ha (List.mem_cons_self _ _)
    · exact ih h.2 (fun hx => ha (List.mem_cons_of_mem _ hx))

theorem length_erase_snoc {l : List Nat} {a b : Nat} (h : a ∈ l) :
    (l.erase a ++ [b]).length = l.length := by
  have h1 := List.length_erase_of_mem h
  have h2 : 0 < l.length := List.length_pos_of_mem h
  simp only [List.length_append, List.length_singleton, h1]
  omega

/-! ### Policy selection helpers -/

theorem selectAux_mem (future : List Nat) :
    ∀ (frames : List Nat) (far : Int) (cand : Nat),
      Optimal.selectAux future frames far cand = cand ∨
        Optimal.selectAux future frames far cand ∈ frames := by
  intro frames
  induction frames with
  | nil => intro far cand; exact Or.inl rfl
  | cons page rest ih =>
    intro far cand
    simp only [Optimal.selectAux]
    cases idxOf? page future with
    | none => exact Or.inr (List.mem_cons_self _ _)
    | some next_use =>
      dsimp only
      by_cases hgt : (next_use : Int) > far
      · rw [if_pos hgt]
        rcases ih next_use page with h | h
        · exact Or.inr (by rw [h]; exact List.mem_cons_self _ _)
        · exact Or.inr (List.mem_cons_of_mem _ h)
      · rw [if_neg hgt]
        rcases ih far cand with h | h
        · exact Or.inl h
        · exact Or.inr (List.mem_cons_of_mem _ h)

theorem select_mem (future : List Nat) {frames : List Nat} (h : frames ≠ []) :
    Optimal.select future frames ∈ frames := by
  rcases selectAux_mem future frames (-1) frames.headI with h2 | h2
  · rw [Optimal.select, h2]; exact headI_mem h
  · exact h2

theorem lfuSelectAux_mem (frequency last_used : Nat → Nat) :
    ∀ (l : List Nat) (best : Nat × Nat × Nat),
      LFU.selectAux frequency last_used l best = best.1 ∨
        LFU.selectAux frequency last_used l best ∈ l := by
  intro l
  induction l with
  | nil => intro best; exact Or.inl rfl
  | cons page rest ih =>
    intro best
    simp only [LFU.selectAux]
    by_cases hc : frequency page < best.2.1 ∨
        (frequency page = best.2.1 ∧ last_used page < best.2.2)
    · rw [if_pos hc]
      rcases ih (page, frequency page, last_used page) with h | h
      · exact Or.inr (by rw [h]; exact List.mem_cons_self _ _)
      · exact Or.inr (List.mem_cons_of_mem _ h)
    · rw [if_neg hc]
      rcases ih best with h | h
      · exact Or.inl h
      · exact Or.inr (List.mem_cons_of_mem _ h)

theorem lfu_select_mem (frequency last_used : Nat → Nat) {frames : List Nat}
    (h : frames ≠ []) : LFU.select frequency last_used frames ∈ frames := by
  cases frames with
  | nil => exact absurd rfl h
  | cons page rest =>
    rcases lfuSelectAux_mem frequency last_used rest (page, frequency page, last_used page)
      with h2 | h2
    · rw [LFU.select, h2]; exact List.mem_cons_self _ _
    · exact List.mem_cons_of_mem _ (by rw [LFU.select]; exact h2)

/-! ### Uniform policy step lemmas -/

/-- A resolve call on a resident page: hit recorded, residency and fault
counter unchanged, no eviction reported. -/
theorem policy_hit (P : Policy) (p : Nat) (fut : List Nat) (hp : p ∈ P.frames) :
    (P.access_page p fut).1.frames = P.frames ∧
    (P.access_page p fut).1.frame_count = P.frame_count ∧
    (P.access_page p fut).1.page_faults = P.page_faults ∧
    (P.access_page p fut).1.page_hits = P.page_hits + 1 ∧
    (P.access_page p fut).2 = (false, none) ∧
    (PolicyInv P → PolicyInv (P.access_page p fut).1) := by
  cases P with
  | fifo s =>
    simp only [Policy.frames] at hp
    have hacc : (Policy.fifo s).access_page p fut
        = (Policy.fifo { s with page_hits := s.page_hits + 1 }, false, none) := by
      simp only [Policy.access_page, FIFO.access_page, if_pos hp]
    rw [hacc]
    exact ⟨rfl, rfl, rfl, rfl, rfl, fun h => h⟩
  | lru s =>
    simp only [Policy.frames] at hp
    have hacc : (Policy.lru s).access_page p fut
        = (Policy.lru
            { s with
              page_hits := s.page_hits + 1,
              page_order := (s.page_order.erase p) ++ [p] }, false, none) := by
      simp only [Policy.access_page, LRU.access_page, if_pos hp]
    rw [hacc]
    refine ⟨rfl, rfl, rfl, rfl, rfl, ?_⟩
    rintro ⟨hiff, hno, hnf, hlen⟩
    refine ⟨?_, ?_, hnf, hlen⟩
    · intro x
      show x ∈ (s.page_order.erase p) ++ [p] ↔ x ∈ s.frames
      rw [List.mem_append, List.mem_singleton, hno.mem_erase_iff]
      constructor
      · rintro (⟨hxp, hx⟩ | rfl)
        · exact (hiff x).1 hx
        · exact hp
      · intro hx
        by_cases hxp : x = p
        · exact Or.inr hxp
        · exact Or.inl ⟨hxp, (hiff x).2 hx⟩
    · exact nodup_snoc (hno.erase _) (fun hx => ((hno.mem_erase_iff).1 hx).1 rfl)
  | optimal s =>
    simp only [Policy.frames] at hp
    have hacc : (Policy.optimal s).access_page p fut
        = (Policy.optimal { s with page_hits := s.page_hits + 1 }, false, none) := by
      simp only [Policy.access_page, Optimal.access_page, if_pos hp]
    rw [hacc]
    exact ⟨rfl, rfl, rfl, rfl, rfl, fun h => h⟩
  | lfu s =>
    simp only [Policy.frames] at hp
    have hacc : (Policy.lfu s).access_page p fut
        = (Policy.lfu
            { s with
              time_counter := s.time_counter + 1,
              page_hits := s.page_hits + 1,
              frequency := fset s.frequency p (s.frequency p + 1),
              last_used := fset s.last_used p (s.time_counter + 1) }, false, none) := by
      simp only [Policy.access_page, LFU.access_page, if_pos hp]
    rw [hacc]
    exact ⟨rfl, rfl, rfl, rfl, rfl, fun h => h⟩

/-- A resolve call on a non-resident page below capacity: fault recorded,
page admitted at the back, no eviction. -/
theorem policy_admit (P : Policy) (p : Nat) (fut : List Nat) (hp : p ∉ P.frames)
    (hlen : P.frames.length < P.frame_count) :
    (P.access_page p fut).1.frames = P.frames ++ [p] ∧
    (P.access_page p fut).1.frame_count = P.frame_count ∧
    (P.access_page p fut).1.page_faults = P.page_faults + 1 ∧
    (P.access_page p fut).1.page_hits = P.page_hits ∧
    (P.access_page p fut).2 = (true, none) ∧
    (PolicyInv P → PolicyInv (P.access_page p fut).1) := by
  cases P with
  | fifo s =>
    simp only [Policy.frames, Policy.frame_count] at hp hlen
    have hacc : (Policy.fifo s).access_page p fut
        = (Policy.fifo
            { s with
              page_faults := s.page_faults + 1,
              frames := s.frames ++ [p],
              queue := s.queue ++ [p] }, true, none) := by
      simp only [Policy.access_page, FIFO.access_page, if_neg hp, if_pos hlen]
    rw [hacc]
    refine ⟨rfl, rfl, rfl, rfl, rfl, ?_⟩
    rintro ⟨hq, hnf, _⟩
    refine ⟨by show s.queue ++ [p] = s.frames ++ [p]; rw [hq], nodup_snoc hnf hp, ?_⟩
    simp only [List.length_append, List.length_singleton]
    omega
  | lru s =>
    simp only [Policy.frames, Policy.frame_count] at hp hlen
    have hacc : (Policy.lru s).access_page p fut
        = (Policy.lru
            { s with
              page_faults := s.page_faults + 1,
              frames := s.frames ++ [p],
              page_order := s.page_order ++ [p] }, true, none) := by
      simp only [Policy.access_page, LRU.access_page, if_neg hp, if_pos hlen]
    rw [hacc]
    refine ⟨rfl, rfl, rfl, rfl, rfl, ?_⟩
    rintro ⟨hiff, hno, hnf, _⟩
    refine ⟨?_, ?_, nodup_snoc hnf hp, ?_⟩
    · intro x
      rw [List.mem_append, List.mem_singleton, List.mem_append, List.mem_singleton]
      exact or_congr_left (hiff x)
    · exact nodup_snoc hno (fun hx => hp ((hiff p).1 hx))
    · simp only [List.length_append, List.length_singleton]
      omega
  | optimal s =>
    simp only [Policy.frames, Policy.frame_count] at hp hlen
    have hacc : (Policy.optimal s).access_page p fut
        = (Policy.optimal
            { s with
              page_faults := s.page_faults + 1,
              frames := s.frames ++ [p] }, true, none) := by
      simp only [Policy.access_page, Optimal.access_page, if_neg hp, if_pos hlen]
    rw [hacc]
    refine ⟨rfl, rfl, rfl, rfl, rfl, ?_⟩
    rintro ⟨hnf, _⟩
    refine ⟨nodup_snoc hnf hp, ?_⟩
    simp only [List.length_append, List.length_singleton]
    omega
  | lfu s =>
    simp only [Policy.frames, Policy.frame_count] at hp hlen
    have hacc : (Policy.lfu s).access_page p fut
        = (Policy.lfu
            { s with
              time_counter := s.time_counter + 1,
              page_faults := s.page_faults + 1,
              frames := s.frames ++ [p],
              frequency := fset s.frequency p (s.frequency p + 1),
              last_used := fset s.last_used p (s.time_counter + 1) }, true, none) := by
      simp only [Policy.access_page, LFU.access_page, if_neg hp, if_pos hlen]
    rw [hacc]
    refine ⟨rfl, rfl, rfl, rfl, rfl, ?_⟩
    rintro ⟨hnf, _⟩
    refine ⟨nodup_snoc hnf hp, ?_⟩
    simp only [List.length_append, List.length_singleton]
    omega

/-- A resolve call on a non-resident page at capacity: fault recorded, a
resident page evicted, the new page admitted at the back. -/
theorem policy_evict (P : Policy) (p : Nat) (fut : List Nat) (hp : p ∉ P.frames)
    (hlen : ¬ P.frames.length < P.frame_count) (hinv : PolicyInv P)
    (hc : 1 ≤ P.frame_count) :
    ∃ q, (P.access_page p fut).2 = (true, some q) ∧ q ∈ P.frames ∧
      (P.access_page p fut).1.frames = P.frames.erase q ++ [p] ∧
      (P.access_page p fut).1.frame_count = P.frame_count ∧
      (P.access_page p fut).1.page_faults = P.page_faults + 1 ∧
      (P.access_page p fut).1.page_hits = P.page_hits ∧
      PolicyInv (P.access_page p fut).1 := by
  have hne : P.frames ≠ [] := by
    intro h0
    rw [h0] at hlen
    simp only [List.length_nil] at hlen
    omega
  cases P with
  | fifo s =>
    simp only [Policy.frames, Policy.frame_count] at hp hlen hne hc
    obtain ⟨hq, hnf, hbound⟩ := hinv
    cases hf : s.frames with
    | nil => exact absurd hf hne
    | cons a t =>
      have hqf : s.queue = a :: t := by rw [hq, hf]
      have hacc : (Policy.fifo s).access_page p fut
          = (Policy.fifo
              { s with
                page_faults := s.page_faults + 1,
                frames := (s.frames.erase a) ++ [p],
                queue := t ++ [p] }, true, some a) := by
        simp only [Policy.access_page, FIFO.access_page, if_neg hp, if_neg hlen, hqf]
      refine ⟨a, ?_⟩
      rw [hacc]
      refine ⟨rfl, by show a ∈ s.frames; rw [hf]; exact List.mem_cons_self _ _,
        rfl, rfl, rfl, rfl, ?_⟩
      refine ⟨?_, ?_, ?_⟩
      · show t ++ [p] = (s.frames.erase a) ++ [p]
        rw [hf, List.erase_cons_head]
      · show ((s.frames.erase a) ++ [p]).Nodup
        rw [hf, List.erase_cons_head]
        rw [hf] at hnf hp
        simp only [List.nodup_cons] at hnf
        exact nodup_snoc hnf.2 (fun hx => hp (List.mem_cons_of_mem _ hx))
      · show ((s.frames.erase a) ++ [p]).length ≤ s.frame_count
        rw [length_erase_snoc (by rw [hf]; exact List.mem_cons_self _ _)]
        exact hbound
  | lru s =>
    simp only [Policy.frames, Policy.frame_count] at hp hlen hne hc
    obtain ⟨hiff, hno, hnf, hbound⟩ := hinv
    have hone : s.page_order ≠ [] := by
      intro h0
      apply hne
      rw [List.eq_nil_iff_forall_not_mem]
      intro x hx
      rw [h0] at hiff
      exact absurd ((hiff x).2 hx) (List.not_mem_nil x)
    cases ho : s.page_order with
    | nil => exact absurd ho hone
    | cons lru_page rest =>
      have hlmem : lru_page ∈ s.frames := (hiff lru_page).1 (ho ▸ List.mem_cons_self _ _)
      have hacc : (Policy.lru s).access_page p fut
          = (Policy.lru
              { s with
                page_faults := s.page_faults + 1,
                frames := (s.frames.erase lru_page) ++ [p],
                page_order := rest ++ [p] }, true, some lru_page) := by
        simp only [Policy.access_page, LRU.access_page, if_neg hp, if_neg hlen, ho]
      refine ⟨lru_page, ?_⟩
      rw [hacc]
      refine ⟨rfl, hlmem, rfl, rfl, rfl, rfl, ?_⟩
      rw [ho] at hno
      simp only [List.nodup_cons] at hno
      refine ⟨?_, ?_, ?_, ?_⟩
      · intro x
        show x ∈ rest ++ [p] ↔ x ∈ (s.frames.erase lru_page) ++ [p]
        rw [List.mem_append, List.mem_singleton, List.mem_append, List.mem_singleton,
          hnf.mem_erase_iff]
        constructor
        · rintro (hx | rfl)
          · refine Or.inl ⟨?_, (hiff x).1 (ho ▸ List.mem_cons_of_mem _ hx)⟩
            intro hxe
            exact hno.1 (hxe ▸ hx)
          · exact Or.inr rfl
        · rintro (⟨hxl, hx⟩ | rfl)
          · have hxo := (hiff x).2 hx
            rw [ho] at hxo
            rcases List.mem_cons.1 hxo with h1 | h1
            · exact absurd h1 hxl
            · exact Or.inl h1
          · exact Or.inr rfl
      · exact nodup_snoc hno.2 (fun hx => hp ((hiff p).1 (ho ▸ List.mem_cons_of_mem _ hx)))
      · exact nodup_snoc (hnf.erase _) (fun hx => hp (List.mem_of_mem_erase hx))
      · show ((s.frames.erase lru_page) ++ [p]).length ≤ s.frame_count
        rw [length_erase_snoc hlmem]
        exact hbound
  | optimal s =>
    simp only [Policy.frames, Policy.frame_count] at hp hlen hne hc
    obtain ⟨hnf, hbound⟩ := hinv
    by_cases hfut : fut ≠ []
    · have hacc : (Policy.optimal s).access_page p fut
          = (Policy.optimal
              { s with
                page_faults := s.page_faults + 1,
                frames := (s.frames.erase (Optimal.select fut s.frames)) ++ [p] },
             true, some (Optimal.select fut s.frames)) := by
        simp only [Policy.access_page, Optimal.access_page, if_neg hp, if_neg hlen,
          if_pos hfut]
      have hmem := select_mem fut hne
      refine ⟨Optimal.select fut s.frames, ?_⟩
      rw [hacc]
      refine ⟨rfl, hmem, rfl, rfl, rfl, rfl, ?_⟩
      refine ⟨nodup_snoc (hnf.erase _) (fun hx => hp (List.mem_of_mem_erase hx)), ?_⟩
      show ((s.frames.erase (Optimal.select fut s.frames)) ++ [p]).length ≤ s.frame_count
      rw [length_erase_snoc hmem]
      exact hbound
    · have hacc : (Policy.optimal s).access_page p fut
          = (Policy.optimal
              { s with
                page_faults := s.page_faults + 1,
                frames := s.frames.tail ++ [p] }, true, some s.frames.headI) := by
        simp only [Policy.access_page, Optimal.access_page, if_neg hp, if_neg hlen,
          if_neg hfut]
      have hmem := headI_mem hne
      refine ⟨s.frames.headI, ?_⟩
      rw [hacc]
      refine ⟨rfl, hmem,
        by show s.frames.tail ++ [p] = s.frames.erase s.frames.headI ++ [p]
           rw [tail_eq_erase_headI hne],
        rfl, rfl, rfl, ?_⟩
      constructor
      · show (s.frames.tail ++ [p]).Nodup
        rw [tail_eq_erase_headI hne]
        exact nodup_snoc (hnf.erase _) (fun hx => hp (List.mem_of_mem_erase hx))
      · show (s.frames.tail ++ [p]).length ≤ s.frame_count
        rw [tail_eq_erase_headI hne, length_erase_snoc hmem]
        exact hbound
  | lfu s =>
    simp only [Policy.frames, Policy.frame_count] at hp hlen hne hc
    obtain ⟨hnf, hbound⟩ := hinv
    have hacc : (Policy.lfu s).access_page p fut
        = (Policy.lfu
            { s with
              time_counter := s.time_counter + 1,
              page_faults := s.page_faults + 1,
              frames := (s.frames.erase (LFU.select s.frequency s.last_used s.frames)) ++ [p],
              frequency :=
                fset (fset s.frequency (LFU.select s.frequency s.last_used s.frames) 0) p
                  ((fset s.frequency (LFU.select s.frequency s.last_used s.frames) 0) p + 1),
              last_used :=
                fset (fset s.last_used (LFU.select s.frequency s.last_used s.frames) 0) p
                  (s.time_counter + 1) },
           true, some (LFU.select s.frequency s.last_used s.frames)) := by
      simp only [Policy.access_page, LFU.access_page, if_neg hp, if_neg hlen]
    have hmem := lfu_select_mem s.frequency s.last_used hne
    refine ⟨LFU.select s.frequency s.last_used s.frames, ?_⟩
    rw [hacc]
    refine ⟨rfl, hmem, rfl, rfl, rfl, rfl, ?_⟩
    refine ⟨nodup_snoc (hnf.erase _) (fun hx => hp (List.mem_of_mem_erase hx)), ?_⟩
    show ((s.frames.erase (LFU.select s.frequency s.last_used s.frames)) ++ [p]).length
        ≤ s.frame_count
    rw [length_erase_snoc hmem]
    exact hbound

/-! ### Frame-table index lemmas -/

theorem length_setIdx {α : Type} (l : List α) (i : Nat) (v : α) :
    (setIdx l i v).length = l.length := by
  induction l generalizing i with
  | nil => rfl
  | cons x rest ih =>
    cases i with
    | zero => rfl
    | succ j => simp [setIdx, ih]

theorem nth_setIdx_self {α : Type} (l : List α) (i : Nat) (v : α) (h : i < l.length) :
    nth (setIdx l i v) i = some v := by
  induction l generalizing i with
  | nil => simp at h
  | cons x rest ih =>
    cases i with
    | zero => rfl
    | succ j =>
      simp only [List.length_cons] at h
      exact ih j (by omega)

theorem nth_setIdx_ne {α : Type} (l : List α) (i j : Nat) (v : α) (h : i ≠ j) :
    nth (setIdx l i v) j = nth l j := by
  induction l generalizing i j with
  | nil => rfl
  | cons x rest ih =>
    cases i with
    | zero =>
      cases j with
      | zero => exact absurd rfl h
      | succ j2 => rfl
    | succ i2 =>
      cases j with
      | zero => rfl
      | succ j2 => exact ih i2 j2 (by omega)

theorem nth_isSome_of_lt {α : Type} (l : List α) (i : Nat) (h : i < l.length) :
    ∃ x, nth l i = some x := by
  induction l generalizing i with
  | nil => simp at h
  | cons x rest ih =>
    cases i with
    | zero => exact ⟨x, rfl⟩
    | succ j =>
      simp only [List.length_cons] at h
      exact ih j (by omega)

theorem firstIdx?_none_spec {α : Type} (q : α → Bool) (l : List α)
    (h : firstIdx? q l = none) : ∀ x ∈ l, q x = false := by
  induction l with
  | nil => intro x hx; exact absurd hx (List.not_mem_nil x)
  | cons a rest ih =>
    intro x hx
    by_cases hq : q a
    · simp [firstIdx?, hq] at h
    · simp only [firstIdx?, if_neg hq, Option.map_eq_none'] at h
      rcases List.mem_cons.1 hx with rfl | hx2
      · exact Bool.eq_false_iff.2 hq
      · exact ih h x hx2

theorem firstIdx?_some_spec {α : Type} (q : α → Bool) (l : List α) (i : Nat)
    (h : firstIdx? q l = some i) :
    i < l.length ∧ ∃ x, nth l i = some x ∧ q x = true := by
  induction l generalizing i with
  | nil => simp [firstIdx?] at h
  | cons a rest ih =>
    by_cases hq : q a
    · simp only [firstIdx?, if_pos hq, Option.some.injEq] at h
      subst h
      exact ⟨by simp, a, rfl, hq⟩
    · simp only [firstIdx?, if_neg hq] at h
      cases h2 : firstIdx? q rest with
      | none => rw [h2] at h; simp at h
      | some j =>
        rw [h2] at h
        simp only [Option.map_some', Option.some.injEq] at h
        subst h
        obtain ⟨hj, x, hx, hqx⟩ := ih j h2
        exact ⟨by simp only [List.length_cons]; omega, x, hx, hqx⟩

theorem findFrameWithPage_some_spec (rp : Nat) :
    ∀ (ft : List (Option (Nat × Nat))) (i op opg : Nat),
      findFrameWithPage rp ft = some (i, op, opg) →
      i < ft.length ∧ nth ft i = some (some (op, opg)) ∧ opg = rp := by
  intro ft
  induction ft with
  | nil => intro i op opg h; simp [findFrameWithPage] at h
  | cons c rest ih =>
    intro i op opg h
    match c with
    | none =>
      simp only [findFrameWithPage] at h
      cases h2 : findFrameWithPage rp rest with
      | none => rw [h2] at h; simp at h
      | some r =>
        obtain ⟨r1, r2, r3⟩ := r
        rw [h2] at h
        simp only [Option.map_some', Option.some.injEq, Prod.mk.injEq] at h
        obtain ⟨hi, hop, hopg⟩ := h
        subst hi
        subst hop
        subst hopg
        obtain ⟨hj, hnth, hpg⟩ := ih r1 r2 r3 h2
        exact ⟨by simp only [List.length_cons]; omega, hnth, hpg⟩
    | some pr =>
      obtain ⟨p0, pg0⟩ := pr
      by_cases hpg : pg0 = rp
      · simp only [findFrameWithPage, if_pos hpg, Option.some.injEq, Prod.mk.injEq] at h
        obtain ⟨hi, hop, hopg⟩ := h
        subst hi
        subst hop
        subst hopg
        exact ⟨by simp, rfl, hpg⟩
      · simp only [findFrameWithPage, if_neg hpg] at h
        cases h2 : findFrameWithPage rp rest with
        | none => rw [h2] at h; simp at h
        | some r =>
          obtain ⟨r1, r2, r3⟩ := r
          rw [h2] at h
          simp only [Option.map_some', Option.some.injEq, Prod.mk.injEq] at h
          obtain ⟨hi, hop, hopg⟩ := h
          subst hi
          subst hop
          subst hopg
          obtain ⟨hj, hnth, hpg2⟩ := ih r1 r2 r3 h2
          exact ⟨by simp only [List.length_cons]; omega, hnth, hpg2⟩

theorem findFrameWithPage_of_mem (rp : Nat) (ft : List (Option (Nat × Nat)))
    (h : rp ∈ framePagesL ft) :
    ∃ i op, findFrameWithPage rp ft = some (i, op, rp) := by
  induction ft with
  | nil => simp [framePagesL] at h
  | cons c rest ih =>
    match c with
    | none =>
      simp only [framePagesL, List.filterMap_cons] at h
      obtain ⟨i, op, hi⟩ := ih h
      exact ⟨i + 1, op, by simp [findFrameWithPage, hi]⟩
    | some (p0, pg0) =>
      by_cases hpg : pg0 = rp
      · exact ⟨0, p0, by simp [findFrameWithPage, hpg]⟩
      · simp only [framePagesL, List.filterMap_cons, Option.map_some'] at h
        rcases List.mem_cons.1 h with h1 | h1
        · exact absurd h1.symm hpg
        · obtain ⟨i, op, hi⟩ := ih h1
          exact ⟨i + 1, op, by simp [findFrameWithPage, if_neg hpg, hi]⟩

theorem framePagesL_length_le (ft : List (Option (Nat × Nat))) :
    (framePagesL ft).length ≤ ft.length := by
  induction ft with
  | nil => simp [framePagesL]
  | cons c rest ih =>
    match c with
    | none =>
      show (framePagesL rest).length ≤ rest.length + 1
      omega
    | some x =>
      show (x.2 :: framePagesL rest).length ≤ rest.length + 1
      simp only [List.length_cons]
      omega

theorem exists_empty_of_lt (ft : List (Option (Nat × Nat)))
    (h : (framePagesL ft).length < ft.length) :
    ∃ i, firstIdx? Option.isNone ft = some i := by
  induction ft with
  | nil => simp at h
  | cons c rest ih =>
    match c with
    | none => exact ⟨0, rfl⟩
    | some x =>
      have hh : (x.2 :: framePagesL rest).length < rest.length + 1 := h
      simp only [List.length_cons] at hh
      obtain ⟨i, hi⟩ := ih (by omega)
      exact ⟨i + 1, by simp [firstIdx?, hi]⟩

theorem firstIdx?_none_of_full (ft : List (Option (Nat × Nat)))
    (h : (framePagesL ft).length = ft.length) :
    firstIdx? Option.isNone ft = none := by
  induction ft with
  | nil => rfl
  | cons c rest ih =>
    match c with
    | none =>
      exfalso
      have hh : (framePagesL rest).length = rest.length + 1 := h
      have := framePagesL_length_le rest
      omega
    | some x =>
      have hh : (x.2 :: framePagesL rest).length = rest.length + 1 := h
      simp only [List.length_cons] at hh
      show (if (some x).isNone = true then some 0
        else (firstIdx? Option.isNone rest).map (· + 1)) = none
      rw [if_neg (by simp), ih (by omega)]
      rfl

theorem framePagesL_set_empty (ft : List (Option (Nat × Nat))) (i pid p : Nat)
    (h : nth ft i = some none) :
    List.Perm (framePagesL (setIdx ft i (some (pid, p)))) (p :: framePagesL ft) := by
  induction ft generalizing i with
  | nil => simp [nth] at h
  | cons c rest ih =>
    cases i with
    | zero =>
      have hc : c = none := by simpa [nth] using h
      subst hc
      show List.Perm (p :: framePagesL rest) (p :: framePagesL rest)
      exact List.Perm.refl _
    | succ j =>
      have h2 : nth rest j = some none := h
      have hrec := ih j h2
      match c with
      | none =>
        show List.Perm (framePagesL (setIdx rest j (some (pid, p)))) (p :: framePagesL rest)
        exact hrec
      | some x =>
        show List.Perm (x.2 :: framePagesL (setIdx rest j (some (pid, p))))
          (p :: x.2 :: framePagesL rest)
        exact List.Perm.trans (List.Perm.cons _ hrec) (List.Perm.swap p x.2 _)

theorem framePagesL_set_occupied (ft : List (Option (Nat × Nat))) (i op oq pid p : Nat)
    (h : nth ft i = some (some (op, oq))) :
    ∃ A B, framePagesL ft = A ++ oq :: B ∧
      framePagesL (setIdx ft i (some (pid, p))) = A ++ p :: B := by
  induction ft generalizing i with
  | nil => simp [nth] at h
  | cons c rest ih =>
    cases i with
    | zero =>
      have hc : c = some (op, oq) := by simpa [nth] using h
      subst hc
      exact ⟨[], framePagesL rest, rfl, rfl⟩
    | succ j =>
      have h2 : nth rest j = some (some (op, oq)) := h
      obtain ⟨A, B, h1, h2b⟩ := ih j h2
      match c with
      | none => exact ⟨A, B, h1, h2b⟩
      | some x =>
        refine ⟨x.2 :: A, B, ?_, ?_⟩
        · show x.2 :: framePagesL rest = x.2 :: A ++ oq :: B
          rw [h1]
          rfl
        · show x.2 :: framePagesL (setIdx rest j (some (pid, p))) = x.2 :: A ++ p :: B
          rw [h2b]
          rfl

theorem mem_framePagesL_of_nth (ft : List (Option (Nat × Nat))) (i : Nat) (pr : Nat × Nat)
    (h : nth ft i = some (some pr)) : pr.2 ∈ framePagesL ft := by
  induction ft generalizing i with
  | nil => simp [nth] at h
  | cons c rest ih =>
    cases i with
    | zero =>
      have hc : c = some pr := by simpa [nth] using h
      subst hc
      show pr.2 ∈ pr.2 :: framePagesL rest
      exact List.mem_cons_self _ _
    | succ j =>
      have h2 : nth rest j = some (some pr) := h
      have hm := ih j h2
      match c with
      | none => exact hm
      | some x =>
        show pr.2 ∈ x.2 :: framePagesL rest
        exact List.mem_cons_of_mem _ hm

theorem nodup_middle {A B : List Nat} {q : Nat} (h : (A ++ q :: B).Nodup) : q ∉ A := by
  intro hq
  rw [List.nodup_append] at h
  exact h.2.2 hq (List.mem_cons_self _ _)

theorem erase_middle {A B : List Nat} {q : Nat} (h : (A ++ q :: B).Nodup) :
    (A ++ q :: B).erase q = A ++ B := by
  rw [List.erase_append_right _ (nodup_middle h), List.erase_cons_head]

/-! ### Residency bound (C7) -/

theorem policyInv_length (P : Policy) (h : PolicyInv P) :
    P.frames.length ≤ P.frame_count := by
  cases P with
  | fifo s => exact h.2.2
  | lru s => exact h.2.2.2
  | optimal s => exact h.2
  | lfu s => exact h.2

theorem get_algorithm_init (nm : String) (c : Nat) (alg : Policy)
    (h : get_algorithm nm c = some alg) :
    PolicyInv alg ∧ alg.frame_count = c ∧ alg.frames = [] ∧
      alg.page_faults = 0 ∧ alg.page_hits = 0 := by
  unfold get_algorithm at h
  split_ifs at h <;> simp only [Option.some.injEq] at h <;> subst h
  · exact ⟨⟨rfl, List.nodup_nil, by simp [FIFO.init]⟩, rfl, rfl, rfl, rfl⟩
  · exact ⟨⟨fun x => Iff.rfl, List.nodup_nil, List.nodup_nil, by simp [LRU.init]⟩,
      rfl, rfl, rfl, rfl⟩
  · exact ⟨⟨List.nodup_nil, by simp [Optimal.init]⟩, rfl, rfl, rfl, rfl⟩
  · exact ⟨⟨List.nodup_nil, by simp [LFU.init]⟩, rfl, rfl, rfl, rfl⟩

/-- Invariant preservation along any sequence of resolve calls. -/
theorem policyInv_run (calls : List (Nat × List Nat)) :
    ∀ (P : Policy), PolicyInv P → 1 ≤ P.frame_count →
      PolicyInv (runPolicy P calls) ∧ (runPolicy P calls).frame_count = P.frame_count := by
  induction calls with
  | nil => exact fun P hinv _ => ⟨hinv, rfl⟩
  | cons c rest ih =>
    intro P hinv hc
    obtain ⟨p, look⟩ := c
    simp only [runPolicy]
    by_cases hp : p ∈ P.frames
    · obtain ⟨_, hcap, _, _, _, hpres⟩ := policy_hit P p look hp
      obtain ⟨h1, h2⟩ := ih _ (hpres hinv) (by rw [hcap]; exact hc)
      exact ⟨h1, by rw [h2, hcap]⟩
    · by_cases hlen : P.frames.length < P.frame_count
      · obtain ⟨_, hcap, _, _, _, hpres⟩ := policy_admit P p look hp hlen
        obtain ⟨h1, h2⟩ := ih _ (hpres hinv) (by rw [hcap]; exact hc)
        exact ⟨h1, by rw [h2, hcap]⟩
      · obtain ⟨q, _, _, _, hcap, _, _, hinv2⟩ := policy_evict P p look hp hlen hinv hc
        obtain ⟨h1, h2⟩ := ih _ hinv2 (by rw [hcap]; exact hc)
        exact ⟨h1, by rw [h2, hcap]⟩

/-- Claim C7: for every policy obtained from the factory (FIFO, LRU,
Optimal, LFU), every capacity c ≥ 1 and every sequence of resolve calls,
the number of resident pages never exceeds c. -/
theorem c7_theorem (c : Nat) (hc : 1 ≤ c) (nm : String) (alg : Policy)
    (h : get_algorithm nm c = some alg) (calls : List (Nat × List Nat)) :
    (runPolicy alg calls).frames.length ≤ c := by
  obtain ⟨hinv, hcap, _, _, _⟩ := get_algorithm_init nm c alg h
  obtain ⟨hinv2, hcap2⟩ := policyInv_run calls alg hinv (by rw [hcap]; exact hc)
  have := policyInv_length _ hinv2
  rw [hcap2, hcap] at this
  exact this

/-- Claim C7 witness: FIFO at capacity 1 over three resolve calls. -/
theorem c7_witness :
    1 ≤ 1 ∧ get_algorithm "FIFO" 1 = some (.fifo (FIFO.init 1)) ∧
      (runPolicy (.fifo (FIFO.init 1)) [(1, []), (2, []), (3, [])]).frames.length ≤ 1 :=
  ⟨Nat.le_refl 1, rfl,
    c7_theorem 1 (Nat.le_refl 1) "FIFO" (.fifo (FIFO.init 1)) rfl [(1, []), (2, []), (3, [])]⟩

/-! ### Optimal eviction characterization (C5) -/

theorem selectAux_first_absent (fut : List Nat) :
    ∀ (frames : List Nat) (y : Nat) (far : Int) (cand : Nat),
      frames.find? (fun x => (idxOf? x fut).isNone) = some y →
      Optimal.selectAux fut frames far cand = y := by
  intro frames
  induction frames with
  | nil => intro y far cand h; simp [List.find?] at h
  | cons page rest ih =>
    intro y far cand h
    simp only [Optimal.selectAux]
    cases hidx : idxOf? page fut with
    | none =>
      rw [List.find?_cons_of_pos _ (by simp [hidx])] at h
      simp only [Option.some.injEq] at h
      exact h
    | some nu =>
      rw [List.find?_cons_of_neg _ (by simp [hidx])] at h
      dsimp only
      by_cases hgt : (nu : Int) > far
      · rw [if_pos hgt]; exact ih y _ _ h
      · rw [if_neg hgt]; exact ih y _ _ h

theorem selectAux_farthest (fut : List Nat) :
    ∀ (frames : List Nat) (far : Int) (cand : Nat),
      (∀ k : Nat, far = (k : Int) → idxOf? cand fut = some k) →
      (∀ x ∈ frames,
        nuLe (idxOf? x fut) (idxOf? (Optimal.selectAux fut frames far cand) fut)) ∧
      (∀ k : Nat, (k : Int) ≤ far →
        nuLe (some k) (idxOf? (Optimal.selectAux fut frames far cand) fut)) := by
  intro frames
  induction frames with
  | nil =>
    intro far cand hbase
    refine ⟨fun x hx => absurd hx (List.not_mem_nil x), ?_⟩
    intro k hk
    have hfar : far = ((far.toNat : Nat) : Int) := by omega
    have := hbase far.toNat hfar
    simp only [Optimal.selectAux, this, nuLe]
    omega
  | cons page rest ih =>
    intro far cand hbase
    simp only [Optimal.selectAux]
    cases hidx : idxOf? page fut with
    | none =>
      refine ⟨?_, ?_⟩
      · intro x hx
        simp only [hidx, nuLe]
      · intro k hk
        simp only [hidx, nuLe]
    | some nu =>
      dsimp only
      by_cases hgt : (nu : Int) > far
      · rw [if_pos hgt]
        have hbase2 : ∀ k : Nat, (nu : Int) = (k : Int) → idxOf? page fut = some k := by
          intro k hk
          have : nu = k := by omega
          rw [← this, hidx]
        obtain ⟨ha, hb⟩ := ih (nu : Int) page hbase2
        refine ⟨?_, ?_⟩
        · intro x hx
          rcases List.mem_cons.1 hx with rfl | hx2
          · rw [hidx]
            exact hb nu (le_refl _)
          · exact ha x hx2
        · intro k hk
          exact hb k (by omega)
      · rw [if_neg hgt]
        obtain ⟨ha, hb⟩ := ih far cand hbase
        refine ⟨?_, ?_⟩
        · intro x hx
          rcases List.mem_cons.1 hx with rfl | hx2
          · rw [hidx]
            exact hb nu (by omega)
          · exact ha x hx2
        · exact hb

theorem select_farthest (fut : List Nat) {frames : List Nat} :
    ∀ x ∈ frames, nuLe (idxOf? x fut) (idxOf? (Optimal.select fut frames) fut) :=
  (selectAux_farthest fut frames (-1) frames.headI (by intro k hk; omega)).1

/-- Claim C5: on a fault at full capacity, Optimal evicts the resident page
whose first occurrence in the lookahead is farthest (absent counting as
infinitely far); a resident page absent from the lookahead is evicted
immediately, the first such page in frame order when several are absent;
and with an empty lookahead it evicts the front of the (admission-ordered)
frame list, as a defined degraded mode, not an error. -/
theorem c5_theorem (s : Optimal) (p : Nat) (fut : List Nat)
    (hp : p ∉ s.frames) (hlen : ¬ s.frames.length < s.frame_count)
    (hc : 1 ≤ s.frame_count) :
    (fut = [] → (s.access_page p fut).2 = (true, some s.frames.headI)) ∧
    (fut ≠ [] →
      (∀ y, s.frames.find? (fun x => (idxOf? x fut).isNone) = some y →
        (s.access_page p fut).2 = (true, some y)) ∧
      (∃ q, (s.access_page p fut).2 = (true, some q) ∧ q ∈ s.frames ∧
        ∀ x ∈ s.frames, nuLe (idxOf? x fut) (idxOf? q fut))) := by
  have hne : s.frames ≠ [] := by
    intro h0
    rw [h0] at hlen
    simp only [List.length_nil] at hlen
    omega
  constructor
  · intro hfut
    simp only [Optimal.access_page, if_neg hp, if_neg hlen, hfut]
    simp
  · intro hfut
    have hacc : (s.access_page p fut).2 = (true, some (Optimal.select fut s.frames)) := by
      simp only [Optimal.access_page, if_neg hp, if_neg hlen, if_pos hfut]
    refine ⟨?_, ?_⟩
    · intro y hy
      rw [hacc, Optimal.select, selectAux_first_absent fut s.frames y (-1) s.frames.headI hy]
    · exact ⟨Optimal.select fut s.frames, hacc, select_mem fut hne, select_farthest fut⟩

/-- Claim C5 witness: frames [1,3,7] at capacity 3, faulting on 9.
With empty lookahead the front page 1 is evicted; with lookahead [7,1]
the absent page 3 is evicted. -/
theorem c5_witness :
    ((9 : Nat) ∉ ([1, 3, 7] : List Nat) ∧
      ¬ ([1, 3, 7] : List Nat).length < 3 ∧ 1 ≤ 3) ∧
    (Optimal.access_page ⟨3, [1, 3, 7], 0, 0⟩ 9 []).2 = (true, some 1) ∧
    (Optimal.access_page ⟨3, [1, 3, 7], 0, 0⟩ 9 [7, 1]).2 = (true, some 3) := by
  refine ⟨⟨by decide, by decide, by decide⟩, ?_, ?_⟩
  · exact (c5_theorem ⟨3, [1, 3, 7], 0, 0⟩ 9 [] (by decide) (by decide) (by decide)).1 rfl
  · exact ((c5_theorem ⟨3, [1, 3, 7], 0, 0⟩ 9 [7, 1] (by decide) (by decide) (by decide)).2
      (by decide)).1 3 (by decide)

/-! ### Manager invariant: initial state and the simple operations -/

theorem policy_reset_spec (P : Policy) :
    P.reset.frames = [] ∧ P.reset.frame_count = P.frame_count ∧ PolicyInv P.reset := by
  cases P with
  | fifo s => exact ⟨rfl, rfl, rfl, List.nodup_nil, Nat.zero_le _⟩
  | lru s => exact ⟨rfl, rfl, fun x => Iff.rfl, List.nodup_nil, List.nodup_nil, Nat.zero_le _⟩
  | optimal s => exact ⟨rfl, rfl, List.nodup_nil, Nat.zero_le _⟩
  | lfu s => exact ⟨rfl, rfl, List.nodup_nil, Nat.zero_le _⟩

theorem alGet_allNone {l : List (Nat × Option Nat)}
    (h : ∀ kv ∈ l, kv.2 = (none : Option Nat)) (k : Nat) :
    (alGet l k).getD none = none := by
  induction l with
  | nil => rfl
  | cons hd tl ih =>
    obtain ⟨k2, v⟩ := hd
    by_cases h2 : k2 = k
    · simp only [alGet, if_pos h2, Option.getD_some]
      exact h (k2, v) (List.mem_cons_self _ _)
    · simp only [alGet, if_neg h2]
      exact ih (fun kv hkv => h kv (List.mem_cons_of_mem _ hkv))

theorem freshTable_get (n k : Nat) : (alGet (freshTable n) k).getD none = none := by
  apply alGet_allNone
  intro kv hkv
  simp only [freshTable, List.mem_map] at hkv
  obtain ⟨i, _, hi⟩ := hkv
  rw [← hi]

theorem pageTableGet_cleared (pt : List (Nat × List (Nat × Option Nat))) (pid page : Nat) :
    (alGet ((alGet (pt.map (fun e =>
        (e.1, e.2.map (fun kv => (kv.1, (none : Option Nat)))))) pid).getD []) page).getD none
      = none := by
  rw [show (fun e : Nat × List (Nat × Option Nat) =>
        (e.1, e.2.map (fun kv => (kv.1, (none : Option Nat)))))
      = (fun e : Nat × List (Nat × Option Nat) =>
        (e.1, (fun t : List (Nat × Option Nat) =>
          t.map (fun kv => (kv.1, (none : Option Nat)))) e.2)) from rfl]
  rw [alGet_mapVal]
  cases halg : alGet pt pid with
  | none => rfl
  | some tbl =>
    simp only [Option.map_some', Option.getD_some]
    exact alGet_clear tbl page

theorem framePagesL_replicate (n : Nat) :
    framePagesL (List.replicate n (none : Option (Nat × Nat))) = [] := by
  induction n with
  | zero => rfl
  | succ m ih => exact ih

theorem mgrInv_init (psz fc : Nat) (nm : String) (s0 : VMState) (hfc : 1 ≤ fc)
    (h : VMState.init psz fc nm = some s0) : MgrInv s0 := by
  unfold VMState.init at h
  cases hga : get_algorithm nm fc with
  | none => rw [hga] at h; simp at h
  | some alg =>
    rw [hga] at h
    simp only [Option.map_some', Option.some.injEq] at h
    obtain ⟨hinv, hcap, hframes, _, _⟩ := get_algorithm_init nm fc alg hga
    subst h
    refine ⟨?_, ?_, hinv, hcap, by simp, hfc, ?_⟩
    · intro pid page f hf
      exact Option.noConfusion hf
    · show List.Perm (framePagesL (List.replicate fc none)) alg.frames
      rw [framePagesL_replicate, hframes]
    · intro pid hp
      exact absurd hp (List.not_mem_nil pid)

theorem mgrInv_add (s : VMState) (pid mem : Nat) (h : MgrInv s) :
    MgrInv (s.add_process pid mem) := by
  refine ⟨?_, h.perm, h.pinv, h.cap, h.flen, h.fpos, ?_⟩
  · intro pid2 pg f hf
    by_cases h2 : pid2 = pid
    · subst h2
      exfalso
      have : pageTableGet (s.add_process pid2 mem) pid2 pg = none := by
        simp only [pageTableGet, VMState.add_process, alGet_alSet_self, Option.getD_some]
        exact freshTable_get _ _
      rw [this] at hf
      exact Option.noConfusion hf
    · have : pageTableGet (s.add_process pid mem) pid2 pg = pageTableGet s pid2 pg := by
        simp only [pageTableGet, VMState.add_process]
        rw [alGet_alSet_ne _ _ _ _ h2]
      rw [this] at hf
      exact h.consistent pid2 pg f hf
  · intro pid2 hp2
    simp only [VMState.add_process] at hp2 ⊢
    by_cases h2 : pid2 = pid
    · subst h2
      rw [alGet_alSet_self]
      rfl
    · rw [alGet_alSet_ne _ _ _ _ h2]
      apply h.sync
      by_cases hmem : pid ∈ s.processes
      · rwa [if_pos hmem] at hp2
      · rw [if_neg hmem] at hp2
        rcases List.mem_append.1 hp2 with h3 | h3
        · exact h3
        · exact absurd (List.mem_singleton.1 h3) h2

/-- Explicit form of a successful change_algorithm call. -/
theorem change_algorithm_ok (s : VMState) (nm : String) (alg : Policy)
    (h : get_algorithm nm s.frame_count = some alg) :
    s.change_algorithm nm = .ok { s with
      algorithm_name := nm,
      algorithm := alg.reset,
      frame_table := List.replicate s.frame_count none,
      page_table := s.page_table.map (fun e =>
        (e.1, e.2.map (fun kv => (kv.1, (none : Option Nat))))) } := by
  unfold VMState.change_algorithm
  rw [h]

/-- Explicit form of a successful change_frames call. -/
theorem change_frames_ok (s : VMState) (n : Nat) (alg : Policy)
    (h : get_algorithm s.algorithm_name n = some alg) :
    s.change_frames n = .ok { s with
      frame_count := n,
      algorithm := alg,
      frame_table :=
        if s.frame_table.length < n then
          s.frame_table ++ List.replicate (n - s.frame_table.length) none
        else s.frame_table.take n } := by
  unfold VMState.change_frames
  rw [h]

theorem mgrInv_change_algorithm (s : VMState) (nm : String) (h : MgrInv s) :
    MgrInv ((s.change_algorithm nm).state) := by
  cases hga : get_algorithm nm s.frame_count with
  | none =>
    have hst : (s.change_algorithm nm).state = { s with algorithm_name := nm } := by
      unfold VMState.change_algorithm
      rw [hga]
      rfl
    rw [hst]
    exact ⟨h.consistent, h.perm, h.pinv, h.cap, h.flen, h.fpos, h.sync⟩
  | some alg =>
    have hok := change_algorithm_ok s nm alg hga
    have hst : (s.change_algorithm nm).state = { s with
        algorithm_name := nm,
        algorithm := alg.reset,
        frame_table := List.replicate s.frame_count none,
        page_table := s.page_table.map (fun e =>
          (e.1, e.2.map (fun kv => (kv.1, (none : Option Nat))))) } := by
      rw [hok]
      rfl
    rw [hst]
    obtain ⟨hrf, hrc, hrinv⟩ := policy_reset_spec alg
    obtain ⟨_, hcap2, _, _, _⟩ := get_algorithm_init nm s.frame_count alg hga
    refine ⟨?_, ?_, hrinv, ?_, by simp, h.fpos, ?_⟩
    · intro pid page f hf
      exfalso
      have : pageTableGet { s with
          algorithm_name := nm,
          algorithm := alg.reset,
          frame_table := List.replicate s.frame_count none,
          page_table := s.page_table.map (fun e =>
            (e.1, e.2.map (fun kv => (kv.1, (none : Option Nat))))) } pid page = none :=
        pageTableGet_cleared s.page_table pid page
      rw [this] at hf
      exact Option.noConfusion hf
    · show List.Perm (framePagesL (List.replicate s.frame_count none)) alg.reset.frames
      rw [framePagesL_replicate, hrf]
    · show alg.reset.frame_count = s.frame_count
      rw [hrc, hcap2]
    · intro pid hp
      show (alGet (s.page_table.map (fun e =>
        (e.1, e.2.map (fun kv => (kv.1, (none : Option Nat)))))) pid).isSome = true
      rw [show (fun e : Nat × List (Nat × Option Nat) =>
            (e.1, e.2.map (fun kv => (kv.1, (none : Option Nat)))))
          = (fun e : Nat × List (Nat × Option Nat) =>
            (e.1, (fun t : List (Nat × Option Nat) =>
              t.map (fun kv => (kv.1, (none : Option Nat)))) e.2)) from rfl]
      rw [alGet_mapVal]
      rw [Option.isSome_map']
      exact h.sync pid hp

/-! ### Manager invariant: the fault-resolution path -/

theorem policyInv_nodup (P : Policy) (h : PolicyInv P) : P.frames.Nodup := by
  cases P with
  | fifo s => exact h.2.1
  | lru s => exact h.2.2.1
  | optimal s => exact h.1
  | lfu s => exact h.1

theorem pageTableGet_update (pt : List (Nat × List (Nat × Option Nat))) (pid page : Nat)
    (v : Option Nat) (pid2 pg2 : Nat) :
    (alGet ((alGet (alSet pt pid (alSet ((alGet pt pid).getD []) page v)) pid2).getD [])
        pg2).getD none
      = if pid2 = pid then
          (if pg2 = page then v else (alGet ((alGet pt pid).getD []) pg2).getD none)
        else (alGet ((alGet pt pid2).getD []) pg2).getD none := by
  by_cases h2 : pid2 = pid
  · subst h2
    rw [if_pos rfl, alGet_alSet_self, Option.getD_some]
    by_cases h3 : pg2 = page
    · subst h3
      rw [if_pos rfl, alGet_alSet_self, Option.getD_some]
    · rw [if_neg h3, alGet_alSet_ne _ _ _ _ h3]
  · rw [if_neg h2, alGet_alSet_ne _ _ _ _ h2]

theorem pageTableGet_clear_entry (pt : List (Nat × List (Nat × Option Nat)))
    (op old_page : Nat) (tblop : List (Nat × Option Nat)) (hop : alGet pt op = some tblop)
    (pid2 pg2 : Nat) :
    (alGet ((alGet (alSet pt op (alSet tblop old_page none)) pid2).getD []) pg2).getD none
      = if pid2 = op then
          (if pg2 = old_page then none else (alGet ((alGet pt op).getD []) pg2).getD none)
        else (alGet ((alGet pt pid2).getD []) pg2).getD none := by
  by_cases h2 : pid2 = op
  · subst h2
    rw [if_pos rfl, alGet_alSet_self, Option.getD_some, hop, Option.getD_some]
    by_cases h3 : pg2 = old_page
    · subst h3
      rw [if_pos rfl, alGet_alSet_self, Option.getD_some]
    · rw [if_neg h3, alGet_alSet_ne _ _ _ _ h3]
  · rw [if_neg h2, alGet_alSet_ne _ _ _ _ h2]

theorem alSet_isSome_mono (pt : List (Nat × List (Nat × Option Nat)))
    (k : Nat) (tbl : List (Nat × Option Nat)) (pid2 : Nat)
    (h : (alGet pt pid2).isSome = true) :
    (alGet (alSet pt k tbl) pid2).isSome = true := by
  by_cases h2 : pid2 = k
  · subst h2
    rw [alGet_alSet_self]
    rfl
  · rw [alGet_alSet_ne _ _ _ _ h2]
    exact h

/-- Consistency of the state produced by a successful allocation: the new
page-table read is routed through pageTableGet_update; hcons says the
intermediate page table (after any clearing) is still consistent with the
old frame table, and hocc says no surviving entry refers to the pair stored
in the reassigned frame. -/
theorem consistent_after_alloc (ft : List (Option (Nat × Nat)))
    (pt2 : List (Nat × List (Nat × Option Nat)))
    (hcons : ∀ pid2 pg2 f2,
      (alGet ((alGet pt2 pid2).getD []) pg2).getD none = some f2 →
      f2 < ft.length ∧ nth ft f2 = some (some (pid2, pg2)))
    (pid page i : Nat) (hilt : i < ft.length)
    (hocc : ∀ pid2 pg2 f2,
      (alGet ((alGet pt2 pid2).getD []) pg2).getD none = some f2 →
      nth ft i ≠ some (some (pid2, pg2)))
    (pid2 pg2 f2 : Nat)
    (hf2 : (alGet ((alGet (alSet pt2 pid
        (alSet ((alGet pt2 pid).getD []) page (some i))) pid2).getD []) pg2).getD none
      = some f2) :
    f2 < (setIdx ft i (some (pid, page))).length ∧
      nth (setIdx ft i (some (pid, page))) f2 = some (some (pid2, pg2)) := by
  rw [pageTableGet_update pt2 pid page (some i) pid2 pg2] at hf2
  rw [length_setIdx]
  by_cases h2 : pid2 = pid
  · rw [if_pos h2] at hf2
    by_cases h3 : pg2 = page
    · rw [if_pos h3] at hf2
      have hf2i : f2 = i := by
        simp only [Option.some.injEq] at hf2
        omega
      subst hf2i
      rw [h2, h3]
      exact ⟨hilt, nth_setIdx_self _ _ _ hilt⟩
    · rw [if_neg h3] at hf2
      obtain ⟨hlt, hnth⟩ := hcons pid pg2 f2 hf2
      have hne : f2 ≠ i := by
        intro hcontra
        subst hcontra
        exact hocc pid pg2 f2 hf2 hnth
      rw [h2]
      exact ⟨hlt, by rw [nth_setIdx_ne _ _ _ _ (fun e => hne e.symm)]; exact hnth⟩
  · rw [if_neg h2] at hf2
    obtain ⟨hlt, hnth⟩ := hcons pid2 pg2 f2 hf2
    have hne : f2 ≠ i := by
      intro hcontra
      subst hcontra
      exact hocc pid2 pg2 f2 hf2 hnth
    exact ⟨hlt, by rw [nth_setIdx_ne _ _ _ _ (fun e => hne e.symm)]; exact hnth⟩

theorem mgrInv_access (s : VMState) (pid page : Nat) (look : List Nat) (h : MgrInv s) :
    MgrInv (s._access_page pid page look) := by
  by_cases hreg : pid ∈ s.processes
  case neg =>
    have heq : s._access_page pid page look = s := by
      unfold VMState._access_page
      rw [if_neg hreg]
    rw [heq]
    exact h
  case pos =>
  have hnodup : s.algorithm.frames.Nodup := policyInv_nodup _ h.pinv
  have hfpnodup : (framePagesL s.frame_table).Nodup := (h.perm.nodup_iff).2 hnodup
  cases hpt : (alGet ((alGet s.page_table pid).getD []) page).getD none with
  | some f =>
    -- page already mapped: pure policy bookkeeping, tables unchanged
    have hcons := h.consistent pid page f hpt
    have hmem : page ∈ s.algorithm.frames :=
      (h.perm.mem_iff).1 (mem_framePagesL_of_nth s.frame_table f (pid, page) hcons.2)
    obtain ⟨hfr, hfc, _, _, _, hpres⟩ := policy_hit s.algorithm page (look.take 50) hmem
    have heq : s._access_page pid page look
        = { s with total_page_accesses := s.total_page_accesses + 1,
                   algorithm := (s.algorithm.access_page page (look.take 50)).1 } := by
      simp only [VMState._access_page, if_pos hreg, hpt]
    rw [heq]
    refine ⟨h.consistent, ?_, hpres h.pinv, ?_, h.flen, h.fpos, h.sync⟩
    · show List.Perm (framePagesL s.frame_table)
        (s.algorithm.access_page page (look.take 50)).1.frames
      rw [hfr]
      exact h.perm
    · show (s.algorithm.access_page page (look.take 50)).1.frame_count = s.frame_count
      rw [hfc, h.cap]
  | none =>
    by_cases hp : page ∈ s.algorithm.frames
    · -- shared-residency policy hit: is_fault is false, nothing allocated
      obtain ⟨hfr, hfc, _, _, hout, hpres⟩ := policy_hit s.algorithm page (look.take 50) hp
      have heq : s._access_page pid page look
          = { s with total_page_accesses := s.total_page_accesses + 1,
                     algorithm := (s.algorithm.access_page page (look.take 50)).1 } := by
        simp only [VMState._access_page, if_pos hreg, hpt, hout]
        rfl
      rw [heq]
      refine ⟨h.consistent, ?_, hpres h.pinv, ?_, h.flen, h.fpos, h.sync⟩
      · show List.Perm (framePagesL s.frame_table)
          (s.algorithm.access_page page (look.take 50)).1.frames
        rw [hfr]
        exact h.perm
      · show (s.algorithm.access_page page (look.take 50)).1.frame_count = s.frame_count
        rw [hfc, h.cap]
    · by_cases hlen : s.algorithm.frames.length < s.algorithm.frame_count
      · -- fault below capacity: an empty frame must exist and is used
        obtain ⟨hfr, hfc, _, _, hout, hpres⟩ :=
          policy_admit s.algorithm page (look.take 50) hp hlen
        have hcnt : (framePagesL s.frame_table).length < s.frame_table.length := by
          have h1 : (framePagesL s.frame_table).length = s.algorithm.frames.length :=
            h.perm.length_eq
          have h2 := h.cap
          have h3 := h.flen
          omega
        obtain ⟨idx, hidx⟩ := exists_empty_of_lt s.frame_table hcnt
        obtain ⟨hidxlt, x, hx, hqx⟩ := firstIdx?_some_spec _ _ _ hidx
        have hxnone : x = none := by
          cases x with
          | none => rfl
          | some y => simp at hqx
        subst hxnone
        have heq : s._access_page pid page look
            = { s with total_page_accesses := s.total_page_accesses + 1,
                       algorithm := (s.algorithm.access_page page (look.take 50)).1,
                       total_page_faults := s.total_page_faults + 1,
                       frame_table := setIdx s.frame_table idx (some (pid, page)),
                       page_table := alSet s.page_table pid
                         (alSet ((alGet s.page_table pid).getD []) page (some idx)),
                       events := s.events ++ [⟨pid, page, idx, none⟩] } := by
          simp only [VMState._access_page, if_pos hreg, hpt, hout, VMState._allocate_frame,
            hidx]
          rfl
        rw [heq]
        refine ⟨?_, ?_, hpres h.pinv, ?_, ?_, h.fpos, ?_⟩
        · intro pid2 pg2 f2 hf2
          refine consistent_after_alloc s.frame_table s.page_table h.consistent
            pid page idx hidxlt ?_ pid2 pg2 f2 hf2
          intro pid3 pg3 f3 _ hcontra
          rw [hx] at hcontra
          exact Option.noConfusion (Option.some.inj hcontra)
        · show List.Perm (framePagesL (setIdx s.frame_table idx (some (pid, page))))
            (s.algorithm.access_page page (look.take 50)).1.frames
          rw [hfr]
          refine (framePagesL_set_empty s.frame_table idx pid page hx).trans ?_
          exact (List.Perm.cons page h.perm).trans
            (List.perm_append_singleton page s.algorithm.frames).symm
        · show (s.algorithm.access_page page (look.take 50)).1.frame_count = s.frame_count
          rw [hfc, h.cap]
        · show (setIdx s.frame_table idx (some (pid, page))).length = s.frame_count
          rw [length_setIdx]
          exact h.flen
        · intro pid2 hp2
          exact alSet_isSome_mono _ _ _ _ (h.sync pid2 hp2)
      · -- fault at capacity: no empty frame, the evicted page is located
        obtain ⟨q, hout, hqmem, hfr, hfc, _, _, hinv2⟩ :=
          policy_evict s.algorithm page (look.take 50) hp hlen h.pinv
            (by rw [h.cap]; exact h.fpos)
        have hfull : (framePagesL s.frame_table).length = s.frame_table.length := by
          have h1 : (framePagesL s.frame_table).length = s.algorithm.frames.length :=
            h.perm.length_eq
          have h2 := h.cap
          have h3 := h.flen
          have h4 := policyInv_length _ h.pinv
          omega
        have hnone := firstIdx?_none_of_full s.frame_table hfull
        have hqfp : q ∈ framePagesL s.frame_table := (h.perm.mem_iff).2 hqmem
        obtain ⟨i, op, hfind⟩ := findFrameWithPage_of_mem q s.frame_table hqfp
        obtain ⟨hilt, hnthi, _⟩ := findFrameWithPage_some_spec q s.frame_table i op q hfind
        obtain ⟨A, B, hA, hB⟩ :=
          framePagesL_set_occupied s.frame_table i op q pid page hnthi
        have her : List.Perm (s.algorithm.frames.erase q) (A ++ B) := by
          have hpe : List.Perm (s.algorithm.frames.erase q)
              ((framePagesL s.frame_table).erase q) := (h.perm.symm).erase q
          rw [hA, erase_middle (by rw [← hA]; exact hfpnodup)] at hpe
          exact hpe
        have hperm_final : List.Perm (framePagesL (setIdx s.frame_table i (some (pid, page))))
            (s.algorithm.frames.erase q ++ [page]) := by
          rw [hB]
          exact List.perm_middle.trans ((List.Perm.cons page her.symm).trans
            (List.perm_append_singleton page _).symm)
        cases hop : alGet s.page_table op with
        | some tblop =>
          have heq : s._access_page pid page look
              = { s with total_page_accesses := s.total_page_accesses + 1,
                         algorithm := (s.algorithm.access_page page (look.take 50)).1,
                         total_page_faults := s.total_page_faults + 1,
                         frame_table := setIdx s.frame_table i (some (pid, page)),
                         page_table := alSet (alSet s.page_table op (alSet tblop q none)) pid
                           (alSet ((alGet (alSet s.page_table op (alSet tblop q none))
                             pid).getD []) page (some i)),
                         events := s.events ++ [⟨pid, page, i, some q⟩] } := by
            simp only [VMState._access_page, if_pos hreg, hpt, hout, VMState._allocate_frame,
              hnone, hfind, hop]
            rfl
          rw [heq]
          have hread2 := pageTableGet_clear_entry s.page_table op q tblop hop
          have hcons2 : ∀ pid3 pg3 f3,
              (alGet ((alGet (alSet s.page_table op (alSet tblop q none)) pid3).getD [])
                pg3).getD none = some f3 →
              f3 < s.frame_table.length ∧
                nth s.frame_table f3 = some (some (pid3, pg3)) := by
            intro pid3 pg3 f3 hr
            rw [hread2 pid3 pg3] at hr
            by_cases h4 : pid3 = op
            · rw [if_pos h4] at hr
              by_cases h5 : pg3 = q
              · rw [if_pos h5] at hr
                exact Option.noConfusion hr
              · rw [if_neg h5] at hr
                rw [← h4] at hr
                exact h.consistent pid3 pg3 f3 hr
            · rw [if_neg h4] at hr
              exact h.consistent pid3 pg3 f3 hr
          have hocc2 : ∀ pid3 pg3 f3,
              (alGet ((alGet (alSet s.page_table op (alSet tblop q none)) pid3).getD [])
                pg3).getD none = some f3 →
              nth s.frame_table i ≠ some (some (pid3, pg3)) := by
            intro pid3 pg3 f3 hr hcontra
            rw [hnthi] at hcontra
            simp only [Option.some.injEq, Prod.mk.injEq] at hcontra
            obtain ⟨hpe1, hpe2⟩ := hcontra
            rw [hread2 pid3 pg3, if_pos hpe1.symm, if_pos hpe2.symm] at hr
            exact Option.noConfusion hr
          refine ⟨?_, ?_, hinv2, ?_, ?_, h.fpos, ?_⟩
          · intro pid2 pg2 f2 hf2
            exact consistent_after_alloc s.frame_table _ hcons2 pid page i hilt hocc2
              pid2 pg2 f2 hf2
          · show List.Perm (framePagesL (setIdx s.frame_table i (some (pid, page))))
              (s.algorithm.access_page page (look.take 50)).1.frames
            rw [hfr]
            exact hperm_final
          · show (s.algorithm.access_page page (look.take 50)).1.frame_count = s.frame_count
            rw [hfc, h.cap]
          · show (setIdx s.frame_table i (some (pid, page))).length = s.frame_count
            rw [length_setIdx]
            exact h.flen
          · intro pid2 hp2
            exact alSet_isSome_mono _ _ _ _ (alSet_isSome_mono _ _ _ _ (h.sync pid2 hp2))
        | none =>
          have heq : s._access_page pid page look
              = { s with total_page_accesses := s.total_page_accesses + 1,
                         algorithm := (s.algorithm.access_page page (look.take 50)).1,
                         total_page_faults := s.total_page_faults + 1,
                         frame_table := setIdx s.frame_table i (some (pid, page)),
                         page_table := alSet s.page_table pid
                           (alSet ((alGet s.page_table pid).getD []) page (some i)),
                         events := s.events ++ [⟨pid, page, i, some q⟩] } := by
            simp only [VMState._access_page, if_pos hreg, hpt, hout, VMState._allocate_frame,
              hnone, hfind, hop]
            rfl
          rw [heq]
          have hocc2 : ∀ pid3 pg3 f3,
              (alGet ((alGet s.page_table pid3).getD []) pg3).getD none = some f3 →
              nth s.frame_table i ≠ some (some (pid3, pg3)) := by
            intro pid3 pg3 f3 hr hcontra
            rw [hnthi] at hcontra
            simp only [Option.some.injEq, Prod.mk.injEq] at hcontra
            obtain ⟨hpe1, hpe2⟩ := hcontra
            rw [← hpe1, hop] at hr
            exact Option.noConfusion hr
          refine ⟨?_, ?_, hinv2, ?_, ?_, h.fpos, ?_⟩
          · intro pid2 pg2 f2 hf2
            exact consistent_after_alloc s.frame_table s.page_table h.consistent
              pid page i hilt hocc2 pid2 pg2 f2 hf2
          · show List.Perm (framePagesL (setIdx s.frame_table i (some (pid, page))))
              (s.algorithm.access_page page (look.take 50)).1.frames
            rw [hfr]
            exact hperm_final
          · show (s.algorithm.access_page page (look.take 50)).1.frame_count = s.frame_count
            rw [hfc, h.cap]
          · show (setIdx s.frame_table i (some (pid, page))).length = s.frame_count
            rw [length_setIdx]
            exact h.flen
          · intro pid2 hp2
            exact alSet_isSome_mono _ _ _ _ (h.sync pid2 hp2)

theorem vm0_reachable : VMState.init 1 3 "FIFO" = some vm0 := rfl

/-- Claim C1 (counterexample): bidirectional page-table/frame-table
consistency is not an invariant of all states reachable through the five
public operations.  Trace c1trace1 (register, access, unregister only)
ends with pageTable[1][5] = Some 0 while frame 0 holds (1, 9); trace
c1trace2 ends with pageTable[1][1] = Some 1 while only frame 0 exists. -/
theorem c1_counterexample :
    (pageTableGet (vm0.runOps c1trace1) 1 5 = some 0 ∧
      nth (vm0.runOps c1trace1).frame_table 0 = some (some (1, 9)) ∧
      ¬ Consistent (vm0.runOps c1trace1)) ∧
    (pageTableGet (vm0.runOps c1trace2) 1 1 = some 1 ∧
      (vm0.runOps c1trace2).frame_table.length = 1 ∧
      ¬ Consistent (vm0.runOps c1trace2)) := by
  refine ⟨⟨by decide, by decide, fun h => ?_⟩, ⟨by decide, by decide, fun h => ?_⟩⟩
  · have h2 := (h 1 5 0 (by decide)).2
    rw [show nth (vm0.runOps c1trace1).frame_table 0 = some (some (1, 9)) from by decide] at h2
    exact absurd h2 (by decide)
  · have h2 := (h 1 1 1 (by decide)).1
    rw [show (vm0.runOps c1trace2).frame_table.length = 1 from by decide] at h2
    omega

/-- Claim C2 (counterexample): setFrameCount does not leave the frame table
empty: growing an occupied 2-frame table (after one access) to 2 frames
keeps frame 0 occupied and the page-table entry mapped. -/
theorem c2_counterexample :
    nth (vm0.runOps [.registerP 1 10, .access 1 0 [], .setFrames 3]).frame_table 0
      = some (some (1, 0)) ∧
    pageTableGet (vm0.runOps [.registerP 1 10, .access 1 0 [], .setFrames 3]) 1 0 = some 0 := by
  exact ⟨by decide, by decide⟩

/-- Claim C2 (amended): setPolicy with a known name leaves every frame
empty and every page-table entry of every process unmapped, for every prior
state; setFrameCount instead preserves the existing frame contents (padding
with empty frames or truncating) and leaves the page tables untouched. -/
theorem c2_theorem (s : VMState) (nm : String) (alg : Policy)
    (h : get_algorithm nm s.frame_count = some alg) :
    (∃ s2, s.change_algorithm nm = .ok s2 ∧
      s2.frame_table.length = s.frame_count ∧
      (∀ f, f < s2.frame_table.length → nth s2.frame_table f = some none) ∧
      (∀ pid page, pageTableGet s2 pid page = none)) ∧
    (∀ n alg2, get_algorithm s.algorithm_name n = some alg2 →
      ∃ s3, s.change_frames n = .ok s3 ∧ s3.page_table = s.page_table ∧
        s3.frame_table =
          (if s.frame_table.length < n then
            s.frame_table ++ List.replicate (n - s.frame_table.length) none
          else s.frame_table.take n)) := by
  constructor
  · refine ⟨_, change_algorithm_ok s nm alg h, ?_, ?_, ?_⟩
    · simp
    · intro f hf
      simp only [List.length_replicate] at hf
      exact nth_replicate _ _ _ hf
    · intro pid page
      simp only [pageTableGet]
      rw [show (fun e : Nat × List (Nat × Option Nat) =>
            (e.1, e.2.map (fun kv => (kv.1, (none : Option Nat)))))
          = (fun e : Nat × List (Nat × Option Nat) =>
            (e.1, (fun t : List (Nat × Option Nat) =>
              t.map (fun kv => (kv.1, (none : Option Nat)))) e.2)) from rfl]
      rw [alGet_mapVal]
      cases halg : alGet s.page_table pid with
      | none => rfl
      | some tbl =>
        simp only [Option.map_some', Option.getD_some]
        exact alGet_clear tbl page
  · intro n alg2 h2
    exact ⟨_, change_frames_ok s n alg2 h2, rfl, rfl⟩

/-- Claim C2 witness at a concrete occupied state. -/
theorem c2_witness :
    (∃ s2, (vm0.runOps [.registerP 1 10, .access 1 0 []]).change_algorithm "LRU" = .ok s2 ∧
      s2.frame_table.length = (vm0.runOps [.registerP 1 10, .access 1 0 []]).frame_count ∧
      (∀ f, f < s2.frame_table.length → nth s2.frame_table f = some none) ∧
      (∀ pid page, pageTableGet s2 pid page = none)) ∧
    (∀ n alg2,
      get_algorithm (vm0.runOps [.registerP 1 10, .access 1 0 []]).algorithm_name n = some alg2 →
      ∃ s3, (vm0.runOps [.registerP 1 10, .access 1 0 []]).change_frames n = .ok s3 ∧
        s3.page_table = (vm0.runOps [.registerP 1 10, .access 1 0 []]).page_table ∧
        s3.frame_table =
          (if (vm0.runOps [.registerP 1 10, .access 1 0 []]).frame_table.length < n then
            (vm0.runOps [.registerP 1 10, .access 1 0 []]).frame_table ++
              List.replicate (n - (vm0.runOps [.registerP 1 10, .access 1 0 []]).frame_table.length) none
          else (vm0.runOps [.registerP 1 10, .access 1 0 []]).frame_table.take n)) :=
  c2_theorem (vm0.runOps [.registerP 1 10, .access 1 0 []]) "LRU" (.lru (LRU.init 3)) rfl

/-- Claim C3 (counterexample): on an unknown policy name, change_algorithm
raises, but the stored policy name has already been overwritten with the
unknown name: the state is not exactly as before the call. -/
theorem c3_counterexample :
    vm0.change_algorithm "NRU"
      = CallResult.error "Unknown algorithm: NRU" { vm0 with algorithm_name := "NRU" } ∧
    vm0.algorithm_name ≠ "NRU" := ⟨rfl, by decide⟩

/-- Claim C3 (amended): for every policy name the factory does not know,
setPolicy raises ValueError ("Unknown algorithm: ..."), and the state is
unchanged except that the stored policy name has already been overwritten
with the unknown name; the active policy instance, frame table, page tables,
counters and events are untouched. -/
theorem c3_theorem (s : VMState) (nm : String)
    (h : get_algorithm nm s.frame_count = none) :
    s.change_algorithm nm
      = CallResult.error ("Unknown algorithm: " ++ nm) { s with algorithm_name := nm } := by
  simp [VMState.change_algorithm, h]

/-- Claim C3 witness. -/
theorem c3_witness :
    vm0.change_algorithm "NRU"
      = CallResult.error ("Unknown algorithm: " ++ "NRU") { vm0 with algorithm_name := "NRU" } :=
  c3_theorem vm0 "NRU" rfl

/-- Claim C6: FIFO with capacity 3 on [1,2,3,4,1,2,5] produces exactly the
trace 1(F),2(F),3(F),4(F,evict 1),1(F,evict 2),2(F,evict 3),5(F,evict 4):
7 faults and 0 hits. -/
theorem c6_theorem :
    (runPolicyTrace (.fifo (FIFO.init 3))
        [(1, []), (2, []), (3, []), (4, []), (1, []), (2, []), (5, [])]).2
      = [(true, none), (true, none), (true, none), (true, some 1),
          (true, some 2), (true, some 3), (true, some 4)] ∧
    (runPolicy (.fifo (FIFO.init 3))
        [(1, []), (2, []), (3, []), (4, []), (1, []), (2, []), (5, [])]).page_faults = 7 ∧
    (runPolicy (.fifo (FIFO.init 3))
        [(1, []), (2, []), (3, []), (4, []), (1, []), (2, []), (5, [])]).page_hits = 0 := by
  exact ⟨by decide, by decide, by decide⟩

/-- Claim C8 (counterexample): after one fault and one hit, get_stats
returns hit_rate 50 (a percentage), not hits/total = 1/2. -/
theorem c8_counterexample :
    (runPolicy (.fifo (FIFO.init 1)) [(1, []), (1, [])]).get_stats.hit_rate
      ≠ ((runPolicy (.fifo (FIFO.init 1)) [(1, []), (1, [])]).get_stats.page_hits : ℚ)
        / ((runPolicy (.fifo (FIFO.init 1)) [(1, []), (1, [])]).get_stats.total_accesses : ℚ) := by
  have e1 : (runPolicy (.fifo (FIFO.init 1)) [(1, []), (1, [])]).get_stats.hit_rate
      = ((1 : ℕ) : ℚ) / ((2 : ℕ) : ℚ) * 100 := rfl
  have e2 : (runPolicy (.fifo (FIFO.init 1)) [(1, []), (1, [])]).get_stats.page_hits = 1 := rfl
  have e3 : (runPolicy (.fifo (FIFO.init 1)) [(1, []), (1, [])]).get_stats.total_accesses
      = 2 := rfl
  rw [e1, e2, e3]
  norm_num

/-- Claim C8 (amended): for every policy state reached by any sequence of
resolve calls, getStats returns hits, faults, totalAccesses = hits + faults,
and hitRate = 100 * hits / totalAccesses (a percentage), with hitRate = 0
when totalAccesses is 0. -/
theorem c8_theorem (P0 : Policy) (calls : List (Nat × List Nat)) :
    (runPolicy P0 calls).get_stats.page_faults = (runPolicy P0 calls).page_faults ∧
    (runPolicy P0 calls).get_stats.page_hits = (runPolicy P0 calls).page_hits ∧
    (runPolicy P0 calls).get_stats.total_accesses
      = (runPolicy P0 calls).page_faults + (runPolicy P0 calls).page_hits ∧
    (runPolicy P0 calls).get_stats.hit_rate
      = (if 0 < (runPolicy P0 calls).page_faults + (runPolicy P0 calls).page_hits then
          ((runPolicy P0 calls).page_hits : ℚ)
            / (((runPolicy P0 calls).page_faults + (runPolicy P0 calls).page_hits : Nat) : ℚ) * 100
        else 0) :=
  ⟨rfl, rfl, rfl, rfl⟩

/-- Claim C9: with pid 10 holding page 0 resident, an access by pid 30 to
its own (unmapped) page 0 is treated as a hit by the shared, page-number
keyed policy: the total access counter increments, pid 30's entry stays
None, the frame table is unchanged, the fault counter is unchanged, and no
FaultEvent is emitted. -/
theorem c9_theorem :
    pageTableGet c9before 10 0 = some 0 ∧
    pageTableGet c9before 30 0 = none ∧
    c9after.total_page_accesses = c9before.total_page_accesses + 1 ∧
    pageTableGet c9after 30 0 = none ∧
    c9after.frame_table = c9before.frame_table ∧
    c9after.total_page_faults = c9before.total_page_faults ∧
    c9after.events = c9before.events := by
  exact ⟨by decide, by decide, by decide, by decide, by decide, by decide, by decide⟩

/-- Claim C10: unregisterProcess touches only the frame table, the process
map and the removed pid's own page table; the active policy instance (its
resident set, auxiliary state and counters), the manager counters, events,
and every other process's page table are unchanged. -/
theorem c10_theorem (s : VMState) (pid : Nat) :
    (s.remove_process pid).algorithm = s.algorithm ∧
    (s.remove_process pid).total_page_faults = s.total_page_faults ∧
    (s.remove_process pid).total_page_accesses = s.total_page_accesses ∧
    (s.remove_process pid).events = s.events ∧
    (s.remove_process pid).algorithm_name = s.algorithm_name ∧
    (s.remove_process pid).frame_count = s.frame_count ∧
    (s.remove_process pid).page_size_kb = s.page_size_kb ∧
    (∀ pid2, pid2 ≠ pid →
      alGet (s.remove_process pid).page_table pid2 = alGet s.page_table pid2) := by
  unfold VMState.remove_process
  by_cases h : pid ∈ s.processes
  · rw [if_pos h]
    refine ⟨rfl, rfl, rfl, rfl, rfl, rfl, rfl, ?_⟩
    intro pid2 h2
    exact alGet_alDel_ne _ _ _ h2
  · rw [if_neg h]
    exact ⟨rfl, rfl, rfl, rfl, rfl, rfl, rfl, fun _ _ => rfl⟩

/-- One public call preserves the manager invariant, for the operations
other than unregisterProcess and setFrameCount. -/
theorem mgrInv_step (s : VMState) (op : MgrOp) (hsafe : op.safe) (h : MgrInv s) :
    MgrInv (s.stepOp op) := by
  cases op with
  | registerP pid mem => exact mgrInv_add s pid mem h
  | unregister pid => exact False.elim hsafe
  | setPolicy nm => exact mgrInv_change_algorithm s nm h
  | setFrames n => exact False.elim hsafe
  | access pid page look => exact mgrInv_access s pid page look h

theorem mgrInv_runOps (ops : List MgrOp) :
    ∀ s : VMState, MgrInv s → (∀ op ∈ ops, op.safe) → MgrInv (s.runOps ops) := by
  induction ops with
  | nil => exact fun s h _ => h
  | cons op rest ih =>
    intro s h hsafe
    exact ih (s.stepOp op) (mgrInv_step s op (hsafe op (List.mem_cons_self _ _)) h)
      (fun op2 hop2 => hsafe op2 (List.mem_cons_of_mem _ hop2))

/-- Claim C1 (amended): bidirectional page-table/frame-table consistency is
an invariant of every state reachable through registerProcess, setPolicy
and accessPage from a freshly constructed manager with at least one frame;
it is not an invariant once unregisterProcess or setFrameCount are allowed
(see the counterexample), and the pure snapshot readers do not mutate
state, so they observe only these reachable states. -/
theorem c1_theorem (psz fc : Nat) (hfc : 1 ≤ fc) (nm : String) (s0 : VMState)
    (hinit : VMState.init psz fc nm = some s0) (ops : List MgrOp)
    (hsafe : ∀ op ∈ ops, op.safe) :
    Consistent (s0.runOps ops) :=
  (mgrInv_runOps ops s0 (mgrInv_init psz fc nm s0 hfc hinit) hsafe).consistent

/-- Claim C1 witness: a concrete safe trace from a fresh FIFO manager. -/
theorem c1_witness :
    Consistent (vm0.runOps
      [.registerP 1 10, .access 1 5 [], .setPolicy "LRU", .access 1 2 [2, 3]]) :=
  c1_theorem 1 3 (by decide) "FIFO" vm0 rfl
    [.registerP 1 10, .access 1 5 [], .setPolicy "LRU", .access 1 2 [2, 3]] (by decide)

/-- Claim C10 witness at a concrete state. -/
theorem c10_witness :
    (c9before.remove_process 10).algorithm = c9before.algorithm ∧
    alGet (c9before.remove_process 10).page_table 30 = alGet c9before.page_table 30 :=
  ⟨(c10_theorem c9before 10).1,
    (c10_theorem c9before 10).2.2.2.2.2.2.2 30 (by decide)⟩

/-! ### C4: Belady optimality of the Optimal policy.  Basic tools. -/

theorem minD_le (l : List Nat) (x : Nat) (hx : x ∈ l) : minD l ≤ x := by
  induction l with
  | nil => exact absurd hx (List.not_mem_nil x)
  | cons a t ih =>
    cases t with
    | nil =>
      rcases List.mem_cons.1 hx with rfl | hx2
      · exact le_refl _
      · exact absurd hx2 (List.not_mem_nil x)
    | cons b t2 =>
      rcases List.mem_cons.1 hx with rfl | hx2
      · show min x (minD (b :: t2)) ≤ x
        exact min_le_left _ _
      · show min a (minD (b :: t2)) ≤ x
        exact le_trans (min_le_right _ _) (ih hx2)

theorem minD_mem (l : List Nat) (h : l ≠ []) : minD l ∈ l := by
  induction l with
  | nil => exact absurd rfl h
  | cons a t ih =>
    cases t with
    | nil => exact List.mem_cons_self _ _
    | cons b t2 =>
      show min a (minD (b :: t2)) ∈ a :: b :: t2
      rcases le_total a (minD (b :: t2)) with h2 | h2
      · rw [min_eq_left h2]
        exact List.mem_cons_self _ _
      · rw [min_eq_right h2]
        exact List.mem_cons_of_mem _ (ih (by simp))

theorem idxOf?_cons_self (x : Nat) (σ : List Nat) : idxOf? x (x :: σ) = some 0 := by
  simp [idxOf?]

theorem idxOf?_cons_ne (p x : Nat) (σ : List Nat) (h : p ≠ x) :
    idxOf? x (p :: σ) = (idxOf? x σ).map (· + 1) := by
  simp [idxOf?, h]

theorem nuLe_shift (a b : Option Nat) :
    nuLe (a.map (· + 1)) (b.map (· + 1)) ↔ nuLe a b := by
  cases a <;> cases b <;> simp [nuLe]

theorem nuLe_of_some_zero (a : Option Nat) (h : nuLe a (some 0)) : a = some 0 := by
  cases a with
  | none => exact absurd h (by simp [nuLe])
  | some m =>
    simp only [nuLe] at h
    simp only [Option.some.injEq]
    omega

theorem idxOf?_eq_some_zero (x p : Nat) (σ : List Nat) (h : idxOf? x (p :: σ) = some 0) :
    p = x := by
  by_cases hpx : p = x
  · exact hpx
  · rw [idxOf?_cons_ne p x σ hpx] at h
    cases hix : idxOf? x σ with
    | none => rw [hix] at h; exact Option.noConfusion h
    | some m =>
      rw [hix] at h
      simp only [Option.map_some', Option.some.injEq] at h
      omega

theorem opt_nil (c : Nat) (C : Finset Nat) : opt c [] C = 0 := by simp [opt]

theorem opt_cons_mem (c : Nat) (p : Nat) (σ : List Nat) (C : Finset Nat) (h : p ∈ C) :
    opt c (p :: σ) C = opt c σ C := by
  simp [opt, h]

theorem opt_cons_lt (c : Nat) (p : Nat) (σ : List Nat) (C : Finset Nat)
    (h : p ∉ C) (h2 : C.card < c) :
    opt c (p :: σ) C = 1 + opt c σ (insert p C) := by
  simp [opt, h, h2]

theorem opt_cons_full (c : Nat) (p : Nat) (σ : List Nat) (C : Finset Nat)
    (h : p ∉ C) (h2 : ¬ C.card < c) :
    opt c (p :: σ) C
      = 1 + minD ((C.sort (· ≤ ·)).map fun q => opt c σ (insert p (C.erase q))) := by
  simp [opt, h, h2]

theorem exists_mem_sdiff (C1 C2 : Finset Nat) (hcard : C2.card ≤ C1.card) (p : Nat)
    (hp2 : p ∈ C2) (hp1 : p ∉ C1) : ∃ x, x ∈ C1 ∧ x ∉ C2 := by
  by_contra hcon
  push_neg at hcon
  have hsub : C1 ⊆ C2 := fun x hx => hcon x hx
  rw [Finset.eq_of_subset_of_card_le hsub hcard] at hp1
  exact hp1 hp2

theorem minD_le_app (C : Finset Nat) (f : Nat → Nat) (q : Nat) (hq : q ∈ C) :
    minD ((C.sort (· ≤ ·)).map f) ≤ f q :=
  minD_le _ _ (List.mem_map_of_mem f ((Finset.mem_sort _).2 hq))

theorem minD_attained (C : Finset Nat) (f : Nat → Nat) (hne : C.Nonempty) :
    ∃ q ∈ C, minD ((C.sort (· ≤ ·)).map f) = f q := by
  have hl : C.sort (· ≤ ·) ≠ [] := by
    intro h0
    obtain ⟨x, hx⟩ := hne
    have := (Finset.mem_sort (α := Nat) (· ≤ ·)).2 hx
    rw [h0] at this
    exact List.not_mem_nil x this
  have hmem := minD_mem ((C.sort (· ≤ ·)).map f) (by simp [hl])
  obtain ⟨q, hq, hfq⟩ := List.mem_map.1 hmem
  exact ⟨q, (Finset.mem_sort _).1 hq, hfq.symm⟩

/-! ### C4: the simulation lemma for opt. -/

theorem sdiff_h1 (E C1 C2 : Finset Nat) (p : Nat) (hE : E ⊆ C2) (hp : p ∈ C1) :
    insert p E \ C1 ⊆ C2 \ C1 := by
  intro y hy
  rw [Finset.mem_sdiff, Finset.mem_insert] at hy
  rw [Finset.mem_sdiff]
  rcases hy.1 with rfl | hyE
  · exact absurd hp hy.2
  · exact ⟨hE hyE, hy.2⟩

theorem sdiff_h2 (E C1 C2 : Finset Nat) (p : Nat) (hE : E ⊆ C2) :
    insert p E \ insert p C1 ⊆ C2 \ C1 := by
  intro y hy
  rw [Finset.mem_sdiff, Finset.mem_insert, Finset.mem_insert] at hy
  push_neg at hy
  rw [Finset.mem_sdiff]
  rcases hy.1 with rfl | hyE
  · exact absurd rfl hy.2.1
  · exact ⟨hE hyE, hy.2.2⟩

theorem sdiff_h3 (E C1 C2 : Finset Nat) (p x : Nat) (hE : E ⊆ C2)
    (hx : x ∉ insert p E) :
    insert p E \ insert p (C1.erase x) ⊆ C2 \ C1 := by
  intro y hy
  rw [Finset.mem_sdiff, Finset.mem_insert, Finset.mem_insert] at hy
  push_neg at hy
  rw [Finset.mem_sdiff]
  rcases hy.1 with rfl | hyE
  · exact absurd rfl hy.2.1
  · refine ⟨hE hyE, ?_⟩
    intro hyC1
    have hyx : y = x := by
      by_contra hyx
      exact hy.2.2 (Finset.mem_erase.2 ⟨hyx, hyC1⟩)
    exact hx (hyx ▸ Finset.mem_insert_of_mem hyE)

theorem sdiff_h4 (C1 C2 : Finset Nat) (p : Nat) :
    C2 \ insert p C1 ⊆ (C2 \ C1).erase p := by
  intro y hy
  rw [Finset.mem_sdiff, Finset.mem_insert] at hy
  push_neg at hy
  rw [Finset.mem_erase, Finset.mem_sdiff]
  exact ⟨hy.2.1, hy.1, hy.2.2⟩

theorem sdiff_h5 (C1 C2 : Finset Nat) (p x : Nat) (hx2 : x ∉ C2) :
    C2 \ insert p (C1.erase x) ⊆ (C2 \ C1).erase p := by
  intro y hy
  rw [Finset.mem_sdiff, Finset.mem_insert] at hy
  push_neg at hy
  rw [Finset.mem_erase, Finset.mem_sdiff]
  refine ⟨hy.2.1, hy.1, ?_⟩
  intro hyC1
  have hyx : y = x := by
    by_contra hyx
    exact hy.2.2 (Finset.mem_erase.2 ⟨hyx, hyC1⟩)
  exact hx2 (hyx ▸ hy.1)

/-- Simulation: running optimally from a cache missing k pages of another
cache costs at most k extra faults. -/
theorem opt_sim (c : Nat) (hc : 1 ≤ c) :
    ∀ (σ : List Nat) (C1 C2 : Finset Nat), C1.card ≤ c → C2.card ≤ c →
      opt c σ C1 ≤ opt c σ C2 + (C2 \ C1).card := by
  intro σ
  induction σ with
  | nil => intro C1 C2 _ _; simp [opt_nil]
  | cons p σ ih =>
    intro C1 C2 hc1 hc2
    by_cases hp2 : p ∈ C2
    · rw [opt_cons_mem c p σ C2 hp2]
      by_cases hp1 : p ∈ C1
      · rw [opt_cons_mem c p σ C1 hp1]
        exact ih C1 C2 hc1 hc2
      · have hpd : p ∈ C2 \ C1 := Finset.mem_sdiff.2 ⟨hp2, hp1⟩
        have hk : 1 ≤ (C2 \ C1).card := Finset.card_pos.2 ⟨p, hpd⟩
        by_cases hlt : C1.card < c
        · rw [opt_cons_lt c p σ C1 hp1 hlt]
          have hcard2 : (C2 \ insert p C1).card ≤ (C2 \ C1).card - 1 := by
            have h5 := Finset.card_le_card (sdiff_h4 C1 C2 p)
            rw [Finset.card_erase_of_mem hpd] at h5
            exact h5
          have hrec := ih (insert p C1) C2
            (by rw [Finset.card_insert_of_not_mem hp1]; omega) hc2
          omega
        · rw [opt_cons_full c p σ C1 hp1 hlt]
          obtain ⟨x, hx1, hx2⟩ := exists_mem_sdiff C1 C2 (by omega) p hp2 hp1
          have hminle : minD ((C1.sort (· ≤ ·)).map
              fun q => opt c σ (insert p (C1.erase q)))
              ≤ opt c σ (insert p (C1.erase x)) :=
            minD_le_app C1 _ x hx1
          have hcard2 : (C2 \ insert p (C1.erase x)).card ≤ (C2 \ C1).card - 1 := by
            have h5 := Finset.card_le_card (sdiff_h5 C1 C2 p x hx2)
            rw [Finset.card_erase_of_mem hpd] at h5
            exact h5
          have hcc : (insert p (C1.erase x)).card ≤ c := by
            rw [Finset.card_insert_of_not_mem
              (fun hpe => hp1 (Finset.mem_of_mem_erase hpe)),
              Finset.card_erase_of_mem hx1]
            omega
          have hrec := ih (insert p (C1.erase x)) C2 hcc hc2
          omega
    · by_cases hlt2 : C2.card < c
      · rw [opt_cons_lt c p σ C2 hp2 hlt2]
        have hc2i : (insert p C2).card ≤ c := by
          rw [Finset.card_insert_of_not_mem hp2]
          omega
        by_cases hp1 : p ∈ C1
        · rw [opt_cons_mem c p σ C1 hp1]
          have hcard2 := Finset.card_le_card
            (sdiff_h1 C2 C1 C2 p (fun y hy => hy) hp1)
          have hrec := ih C1 (insert p C2) hc1 hc2i
          omega
        · by_cases hlt1 : C1.card < c
          · rw [opt_cons_lt c p σ C1 hp1 hlt1]
            have hcard2 := Finset.card_le_card
              (sdiff_h2 C2 C1 C2 p (fun y hy => hy))
            have hrec := ih (insert p C1) (insert p C2)
              (by rw [Finset.card_insert_of_not_mem hp1]; omega) hc2i
            omega
          · rw [opt_cons_full c p σ C1 hp1 hlt1]
            obtain ⟨x, hx1, hx2⟩ := exists_mem_sdiff C1 (insert p C2)
              (by rw [Finset.card_insert_of_not_mem hp2]; omega) p
              (Finset.mem_insert_self p C2) hp1
            have hminle : minD ((C1.sort (· ≤ ·)).map
                fun q => opt c σ (insert p (C1.erase q)))
                ≤ opt c σ (insert p (C1.erase x)) :=
              minD_le_app C1 _ x hx1
            have hcard2 := Finset.card_le_card
              (sdiff_h3 C2 C1 C2 p x (fun y hy => hy) hx2)
            have hcc : (insert p (C1.erase x)).card ≤ c := by
              rw [Finset.card_insert_of_not_mem
                (fun hpe => hp1 (Finset.mem_of_mem_erase hpe)),
                Finset.card_erase_of_mem hx1]
              omega
            have hrec := ih (insert p (C1.erase x)) (insert p C2) hcc hc2i
            omega
      · rw [opt_cons_full c p σ C2 hp2 hlt2]
        have hC2ne : C2.Nonempty := Finset.card_pos.1 (by omega)
        obtain ⟨q0, hq0, hq0e⟩ :=
          minD_attained C2 (fun q => opt c σ (insert p (C2.erase q))) hC2ne
        have hq0e2 : minD ((C2.sort (· ≤ ·)).map
            fun q => opt c σ (insert p (C2.erase q)))
            = opt c σ (insert p (C2.erase q0)) := hq0e
        rw [hq0e2]
        have hEsub : C2.erase q0 ⊆ C2 := Finset.erase_subset q0 C2
        have hpE : p ∉ C2.erase q0 := fun hpe => hp2 (Finset.mem_of_mem_erase hpe)
        have hc2i : (insert p (C2.erase q0)).card ≤ c := by
          rw [Finset.card_insert_of_not_mem hpE, Finset.card_erase_of_mem hq0]
          omega
        by_cases hp1 : p ∈ C1
        · rw [opt_cons_mem c p σ C1 hp1]
          have hcard2 := Finset.card_le_card
            (sdiff_h1 (C2.erase q0) C1 C2 p hEsub hp1)
          have hrec := ih C1 (insert p (C2.erase q0)) hc1 hc2i
          omega
        · by_cases hlt1 : C1.card < c
          · rw [opt_cons_lt c p σ C1 hp1 hlt1]
            have hcard2 := Finset.card_le_card
              (sdiff_h2 (C2.erase q0) C1 C2 p hEsub)
            have hrec := ih (insert p C1) (insert p (C2.erase q0))
              (by rw [Finset.card_insert_of_not_mem hp1]; omega) hc2i
            omega
          · rw [opt_cons_full c p σ C1 hp1 hlt1]
            obtain ⟨x, hx1, hx2⟩ := exists_mem_sdiff C1 (insert p (C2.erase q0))
              (by omega) p (Finset.mem_insert_self p _) hp1
            have hminle : minD ((C1.sort (· ≤ ·)).map
                fun q => opt c σ (insert p (C1.erase q)))
                ≤ opt c σ (insert p (C1.erase x)) :=
              minD_le_app C1 _ x hx1
            have hcard2 := Finset.card_le_card
              (sdiff_h3 (C2.erase q0) C1 C2 p x hEsub hx2)
            have hcc : (insert p (C1.erase x)).card ≤ c := by
              rw [Finset.card_insert_of_not_mem
                (fun hpe => hp1 (Finset.mem_of_mem_erase hpe)),
                Finset.card_erase_of_mem hx1]
              omega
            have hrec := ih (insert p (C1.erase x)) (insert p (C2.erase q0)) hcc hc2i
            omega

/-! ### C4: the dominance lemma: keeping a sooner-needed page is at least
as good as keeping a later-needed one. -/

theorem opt_dominance (c : Nat) (hc : 1 ≤ c) :
    ∀ (σ : List Nat) (D : Finset Nat) (a b : Nat), a ∉ D → b ∉ D →
      D.card + 1 ≤ c → nuLe (idxOf? a σ) (idxOf? b σ) →
      opt c σ (insert a D) ≤ opt c σ (insert b D) := by
  intro σ
  induction σ with
  | nil => intro D a b _ _ _ _; simp [opt_nil]
  | cons p σ ih =>
    intro D a b ha hb hcard hfar
    by_cases hab : a = b
    · rw [hab]
    by_cases hpb : p = b
    · exfalso
      rw [hpb, idxOf?_cons_self] at hfar
      have h0 := nuLe_of_some_zero _ hfar
      rw [← hpb] at h0
      exact hab ((idxOf?_eq_some_zero a p σ h0).symm ▸ hpb)
    by_cases hpa : p = a
    · rw [hpa]
      have haA : a ∈ insert a D := Finset.mem_insert_self a D
      have haB : a ∉ insert b D := by
        rw [Finset.mem_insert]
        push_neg
        exact ⟨hab, ha⟩
      rw [opt_cons_mem c a σ (insert a D) haA]
      have hcardA : (insert a D).card ≤ c := by
        rw [Finset.card_insert_of_not_mem ha]
        omega
      have hcardB : (insert b D).card = D.card + 1 := Finset.card_insert_of_not_mem hb
      by_cases hlt : (insert b D).card < c
      · rw [opt_cons_lt c a σ (insert b D) haB hlt]
        have hdiff : (insert a (insert b D)) \ (insert a D) = {b} := by
          ext y
          rw [Finset.mem_sdiff, Finset.mem_insert, Finset.mem_insert, Finset.mem_insert,
            Finset.mem_singleton]
          constructor
          · rintro ⟨h1, h2⟩
            push_neg at h2
            rcases h1 with rfl | rfl | hyD
            · exact absurd rfl h2.1
            · rfl
            · exact absurd hyD h2.2
          · rintro rfl
            push_neg
            exact ⟨Or.inr (Or.inl rfl), fun e => hab e.symm, hb⟩
        have hsim := opt_sim c hc σ (insert a D) (insert a (insert b D)) hcardA
          (by
            rw [Finset.card_insert_of_not_mem haB, hcardB]
            omega)
        rw [hdiff, Finset.card_singleton] at hsim
        omega
      · rw [opt_cons_full c a σ (insert b D) haB hlt]
        obtain ⟨q0, hq0, hq0e⟩ := minD_attained (insert b D)
          (fun q => opt c σ (insert a ((insert b D).erase q)))
          ⟨b, Finset.mem_insert_self b D⟩
        have hq0e2 : minD (((insert b D).sort (· ≤ ·)).map
            fun q => opt c σ (insert a ((insert b D).erase q)))
            = opt c σ (insert a ((insert b D).erase q0)) := hq0e
        rw [hq0e2]
        rcases Finset.mem_insert.1 hq0 with rfl | hq0D
        · rw [Finset.erase_insert hb]
          omega
        · have hq0b : q0 ≠ b := fun e => hb (e ▸ hq0D)
          rw [Finset.erase_insert_of_ne (Ne.symm hq0b)]
          have hdiff : (insert a (insert b (D.erase q0))) \ (insert a D) = {b} := by
            ext y
            rw [Finset.mem_sdiff, Finset.mem_insert, Finset.mem_insert, Finset.mem_insert,
              Finset.mem_singleton]
            constructor
            · rintro ⟨h1, h2⟩
              push_neg at h2
              rcases h1 with rfl | rfl | hyD
              · exact absurd rfl h2.1
              · rfl
              · exact absurd (Finset.mem_of_mem_erase hyD) h2.2
            · rintro rfl
              push_neg
              exact ⟨Or.inr (Or.inl rfl), fun e => hab e.symm, hb⟩
          have hsim := opt_sim c hc σ (insert a D) (insert a (insert b (D.erase q0)))
            hcardA
            (by
              have h1 := Finset.card_insert_le a (insert b (D.erase q0))
              have h2 := Finset.card_insert_le b (D.erase q0)
              have h3 := Finset.card_erase_of_mem hq0D
              have h4 := Finset.card_pos.2 ⟨q0, hq0D⟩
              omega)
          rw [hdiff, Finset.card_singleton] at hsim
          omega
    · have hfar2 : nuLe (idxOf? a σ) (idxOf? b σ) := by
        rw [idxOf?_cons_ne p a σ hpa, idxOf?_cons_ne p b σ hpb] at hfar
        exact (nuLe_shift _ _).1 hfar
      by_cases hpD : p ∈ D
      · rw [opt_cons_mem c p σ (insert a D) (Finset.mem_insert_of_mem hpD),
            opt_cons_mem c p σ (insert b D) (Finset.mem_insert_of_mem hpD)]
        exact ih D a b ha hb hcard hfar2
      · have hpA : p ∉ insert a D := by
          rw [Finset.mem_insert]
          push_neg
          exact ⟨hpa, hpD⟩
        have hpB : p ∉ insert b D := by
          rw [Finset.mem_insert]
          push_neg
          exact ⟨hpb, hpD⟩
        have hcardA : (insert a D).card = D.card + 1 := Finset.card_insert_of_not_mem ha
        have hcardB : (insert b D).card = D.card + 1 := Finset.card_insert_of_not_mem hb
        by_cases hlt : (insert b D).card < c
        · have hltA : (insert a D).card < c := by omega
          rw [opt_cons_lt c p σ (insert a D) hpA hltA,
              opt_cons_lt c p σ (insert b D) hpB hlt,
              Finset.Insert.comm p a D, Finset.Insert.comm p b D]
          have hrec := ih (insert p D) a b
            (by rw [Finset.mem_insert]; push_neg; exact ⟨fun e => hpa e.symm, ha⟩)
            (by rw [Finset.mem_insert]; push_neg; exact ⟨fun e => hpb e.symm, hb⟩)
            (by rw [Finset.card_insert_of_not_mem hpD]; omega) hfar2
          omega
        · have hltA : ¬ (insert a D).card < c := by omega
          rw [opt_cons_full c p σ (insert a D) hpA hltA,
              opt_cons_full c p σ (insert b D) hpB hlt]
          obtain ⟨q0, hq0, hq0e⟩ := minD_attained (insert b D)
            (fun q => opt c σ (insert p ((insert b D).erase q)))
            ⟨b, Finset.mem_insert_self b D⟩
          have hq0e2 : minD (((insert b D).sort (· ≤ ·)).map
              fun q => opt c σ (insert p ((insert b D).erase q)))
              = opt c σ (insert p ((insert b D).erase q0)) := hq0e
          rw [hq0e2]
          rcases Finset.mem_insert.1 hq0 with rfl | hq0D
          · -- the b-side evicts b: both caches become insert p D
            rw [Finset.erase_insert hb]
            have hminA : minD (((insert a D).sort (· ≤ ·)).map
                fun q => opt c σ (insert p ((insert a D).erase q)))
                ≤ opt c σ (insert p ((insert a D).erase a)) :=
              minD_le_app (insert a D) _ a (Finset.mem_insert_self a D)
            rw [Finset.erase_insert ha] at hminA
            omega
          · have hq0b : q0 ≠ b := fun e => hb (e ▸ hq0D)
            have hq0a : q0 ≠ a := fun e => ha (e ▸ hq0D)
            rw [Finset.erase_insert_of_ne (Ne.symm hq0b)]
            have hminA : minD (((insert a D).sort (· ≤ ·)).map
                fun q => opt c σ (insert p ((insert a D).erase q)))
                ≤ opt c σ (insert p ((insert a D).erase q0)) :=
              minD_le_app (insert a D) _ q0 (Finset.mem_insert_of_mem hq0D)
            rw [Finset.erase_insert_of_ne (Ne.symm hq0a)] at hminA
            have hrec := ih (insert p (D.erase q0)) a b
              (by
                rw [Finset.mem_insert]
                push_neg
                exact ⟨fun e => hpa e.symm, fun he => ha (Finset.mem_of_mem_erase he)⟩)
              (by
                rw [Finset.mem_insert]
                push_neg
                exact ⟨fun e => hpb e.symm, fun he => hb (Finset.mem_of_mem_erase he)⟩)
              (by
                have h1 := Finset.card_insert_le p (D.erase q0)
                have h3 := Finset.card_erase_of_mem hq0D
                have h4 := Finset.card_pos.2 ⟨q0, hq0D⟩
                omega) hfar2
            rw [Finset.Insert.comm a p (D.erase q0), Finset.Insert.comm b p (D.erase q0)]
              at hrec
            omega

/-! ### C4: exchange step and the two run bounds. -/

theorem opt_exchange (c : Nat) (hc : 1 ≤ c) (σ : List Nat) (C : Finset Nat) (p r q : Nat)
    (hr : r ∈ C) (hq : q ∈ C) (hp : p ∉ C) (hcard : C.card ≤ c)
    (hfar : nuLe (idxOf? q σ) (idxOf? r σ)) :
    opt c σ (insert p (C.erase r)) ≤ opt c σ (insert p (C.erase q)) := by
  by_cases hqr : q = r
  · rw [hqr]
  · have hpq : p ≠ q := fun e => hp (e ▸ hq)
    have hpr : p ≠ r := fun e => hp (e ▸ hr)
    have h1 : insert p (C.erase r) = insert q (insert p ((C.erase r).erase q)) := by
      ext y
      simp only [Finset.mem_insert, Finset.mem_erase]
      constructor
      · rintro (rfl | ⟨hyr, hyC⟩)
        · exact Or.inr (Or.inl rfl)
        · by_cases hyq : y = q
          · exact Or.inl hyq
          · exact Or.inr (Or.inr ⟨hyq, hyr, hyC⟩)
      · rintro (rfl | rfl | ⟨hyq, hyr, hyC⟩)
        · exact Or.inr ⟨hqr, hq⟩
        · exact Or.inl rfl
        · exact Or.inr ⟨hyr, hyC⟩
    have h2 : insert p (C.erase q) = insert r (insert p ((C.erase r).erase q)) := by
      ext y
      simp only [Finset.mem_insert, Finset.mem_erase]
      constructor
      · rintro (rfl | ⟨hyq, hyC⟩)
        · exact Or.inr (Or.inl rfl)
        · by_cases hyr : y = r
          · exact Or.inl hyr
          · exact Or.inr (Or.inr ⟨hyq, hyr, hyC⟩)
      · rintro (rfl | rfl | ⟨hyq, hyr, hyC⟩)
        · exact Or.inr ⟨fun e => hqr e.symm, hr⟩
        · exact Or.inl rfl
        · exact Or.inr ⟨hyq, hyC⟩
    rw [h1, h2]
    refine opt_dominance c hc σ (insert p ((C.erase r).erase q)) q r ?_ ?_ ?_ hfar
    · rw [Finset.mem_insert, Finset.mem_erase]
      push_neg
      exact ⟨fun e => hpq e.symm, fun h => absurd rfl h⟩
    · rw [Finset.mem_insert, Finset.mem_erase, Finset.mem_erase]
      push_neg
      exact ⟨Ne.symm hpr, fun hrq hrr => absurd rfl hrr⟩
    · have e1 : (C.erase r).card = C.card - 1 := Finset.card_erase_of_mem hr
      have e2 : ((C.erase r).erase q).card = (C.erase r).card - 1 :=
        Finset.card_erase_of_mem (Finset.mem_erase.2 ⟨hqr, hq⟩)
      have e3 := Finset.card_insert_le p ((C.erase r).erase q)
      have e4 : 1 < C.card := Finset.one_lt_card.2 ⟨q, hq, r, hr, hqr⟩
      omega

theorem toFinset_snoc (l : List Nat) (p : Nat) :
    (l ++ [p]).toFinset = insert p l.toFinset := by
  ext y
  simp only [List.mem_toFinset, List.mem_append, List.mem_singleton, Finset.mem_insert]
  exact or_comm

theorem toFinset_erase_snoc (l : List Nat) (q p : Nat) (h : l.Nodup) :
    ((l.erase q) ++ [p]).toFinset = insert p (l.toFinset.erase q) := by
  ext y
  simp only [List.mem_toFinset, List.mem_append, List.mem_singleton, Finset.mem_insert,
    Finset.mem_erase, h.mem_erase_iff, List.mem_toFinset]
  exact or_comm

theorem opt_evict_bound (c : Nat) (hc : 1 ≤ c) (σ : List Nat) (C : Finset Nat) (p r : Nat)
    (hr : r ∈ C) (hp : p ∉ C) (hcard : C.card ≤ c)
    (hfar : ∀ x ∈ C, nuLe (idxOf? x σ) (idxOf? r σ)) :
    opt c σ (insert p (C.erase r))
      ≤ minD ((C.sort (· ≤ ·)).map fun q => opt c σ (insert p (C.erase q))) := by
  obtain ⟨q0, hq0, hq0e⟩ := minD_attained C (fun q => opt c σ (insert p (C.erase q)))
    ⟨r, hr⟩
  have hq0e2 : minD ((C.sort (· ≤ ·)).map fun q => opt c σ (insert p (C.erase q)))
      = opt c σ (insert p (C.erase q0)) := hq0e
  rw [hq0e2]
  exact opt_exchange c hc σ C p r q0 hr hq0 hp hcard (hfar q0 hq0)

/-- Every demand-paging policy of the source faults at least opt-many
times: its own eviction choice is one of the options the offline optimum
minimises over. -/
theorem opt_le_runFuture :
    ∀ (σ : List Nat) (P : Policy), PolicyInv P → 1 ≤ P.frame_count →
      opt P.frame_count σ P.frames.toFinset + P.page_faults
        ≤ (runFuture P σ).page_faults := by
  intro σ
  induction σ with
  | nil =>
    intro P hinv hc
    rw [show runFuture P [] = P from rfl, opt_nil]
    omega
  | cons p σ ih =>
    intro P hinv hc
    rw [show runFuture P (p :: σ) = runFuture (P.access_page p σ).1 σ from rfl]
    by_cases hp : p ∈ P.frames
    · obtain ⟨hfr, hfc, hfaults, _, _, hpres⟩ := policy_hit P p σ hp
      rw [opt_cons_mem _ _ _ _ (List.mem_toFinset.2 hp)]
      have hrec := ih (P.access_page p σ).1 (hpres hinv) (by rw [hfc]; exact hc)
      rw [hfr, hfc, hfaults] at hrec
      exact hrec
    · have hnd := policyInv_nodup P hinv
      have hcardf : P.frames.toFinset.card = P.frames.length :=
        List.toFinset_card_of_nodup hnd
      have hpn : p ∉ P.frames.toFinset := fun hx => hp (List.mem_toFinset.1 hx)
      by_cases hlen : P.frames.length < P.frame_count
      · obtain ⟨hfr, hfc, hfaults, _, _, hpres⟩ := policy_admit P p σ hp hlen
        rw [opt_cons_lt _ _ _ _ hpn (by omega)]
        have hrec := ih (P.access_page p σ).1 (hpres hinv) (by rw [hfc]; exact hc)
        rw [hfr, hfc, hfaults, toFinset_snoc] at hrec
        omega
      · obtain ⟨q, hout, hqmem, hfr, hfc, hfaults, _, hinv2⟩ :=
          policy_evict P p σ hp hlen hinv hc
        rw [opt_cons_full _ _ _ _ hpn (by omega)]
        have hrec := ih (P.access_page p σ).1 hinv2 (by rw [hfc]; exact hc)
        rw [hfr, hfc, hfaults, toFinset_erase_snoc _ _ _ hnd] at hrec
        have hminle : minD ((P.frames.toFinset.sort (· ≤ ·)).map
            fun q2 => opt P.frame_count σ (insert p (P.frames.toFinset.erase q2)))
            ≤ opt P.frame_count σ (insert p (P.frames.toFinset.erase q)) :=
          minD_le_app _ _ q (List.mem_toFinset.2 hqmem)
        omega

/-- The Optimal policy, fed the full remaining future at every access,
faults at most opt-many times: its eviction is an offline-optimal one. -/
theorem runFuture_optimal_le_opt :
    ∀ (σ : List Nat) (s : Optimal), s.frames.Nodup →
      s.frames.length ≤ s.frame_count → 1 ≤ s.frame_count →
      (runFuture (Policy.optimal s) σ).page_faults
        ≤ s.page_faults + opt s.frame_count σ s.frames.toFinset := by
  intro σ
  induction σ with
  | nil =>
    intro s _ _ _
    rw [show runFuture (Policy.optimal s) [] = Policy.optimal s from rfl, opt_nil]
    exact Nat.le_add_right s.page_faults 0
  | cons p σ ih =>
    intro s hnd hlen hc
    rw [show runFuture (Policy.optimal s) (p :: σ)
        = runFuture (Policy.optimal (s.access_page p σ).1) σ from rfl]
    by_cases hp : p ∈ s.frames
    · have hfr2 : (s.access_page p σ).1.frames = s.frames := by
        simp only [Optimal.access_page, if_pos hp]
      have hfc2 : (s.access_page p σ).1.frame_count = s.frame_count := by
        simp only [Optimal.access_page, if_pos hp]
      have hpf2 : (s.access_page p σ).1.page_faults = s.page_faults := by
        simp only [Optimal.access_page, if_pos hp]
      have hrec := ih (s.access_page p σ).1 (by rw [hfr2]; exact hnd)
        (by rw [hfr2, hfc2]; exact hlen) (by rw [hfc2]; exact hc)
      rw [hfr2, hfc2, hpf2] at hrec
      rw [opt_cons_mem _ _ _ _ (List.mem_toFinset.2 hp)]
      exact hrec
    · have hcardf : s.frames.toFinset.card = s.frames.length :=
        List.toFinset_card_of_nodup hnd
      have hpn : p ∉ s.frames.toFinset := fun hx => hp (List.mem_toFinset.1 hx)
      by_cases hlt : s.frames.length < s.frame_count
      · have hfr2 : (s.access_page p σ).1.frames = s.frames ++ [p] := by
          simp only [Optimal.access_page, if_neg hp, if_pos hlt]
        have hfc2 : (s.access_page p σ).1.frame_count = s.frame_count := by
          simp only [Optimal.access_page, if_neg hp, if_pos hlt]
        have hpf2 : (s.access_page p σ).1.page_faults = s.page_faults + 1 := by
          simp only [Optimal.access_page, if_neg hp, if_pos hlt]
        have hrec := ih (s.access_page p σ).1
          (by rw [hfr2]; exact nodup_snoc hnd hp)
          (by
            rw [hfr2, hfc2]
            simp only [List.length_append, List.length_singleton]
            omega)
          (by rw [hfc2]; exact hc)
        rw [hfr2, hfc2, hpf2, toFinset_snoc] at hrec
        rw [opt_cons_lt _ _ _ _ hpn (by omega)]
        omega
      · have hne : s.frames ≠ [] := by
          intro h0
          rw [h0] at hlt
          simp only [List.length_nil] at hlt
          omega
        by_cases hfut : σ ≠ []
        · have hfr2 : (s.access_page p σ).1.frames
              = (s.frames.erase (Optimal.select σ s.frames)) ++ [p] := by
            simp only [Optimal.access_page, if_neg hp, if_neg hlt, if_pos hfut]
          have hfc2 : (s.access_page p σ).1.frame_count = s.frame_count := by
            simp only [Optimal.access_page, if_neg hp, if_neg hlt, if_pos hfut]
          have hpf2 : (s.access_page p σ).1.page_faults = s.page_faults + 1 := by
            simp only [Optimal.access_page, if_neg hp, if_neg hlt, if_pos hfut]
          have hrmem := select_mem σ hne
          have hfarr : ∀ x ∈ s.frames.toFinset,
              nuLe (idxOf? x σ) (idxOf? (Optimal.select σ s.frames) σ) :=
            fun x hx => select_farthest σ x (List.mem_toFinset.1 hx)
          have hbound := opt_evict_bound s.frame_count hc σ s.frames.toFinset p
            (Optimal.select σ s.frames) (List.mem_toFinset.2 hrmem) hpn (by omega) hfarr
          have hrec := ih (s.access_page p σ).1
            (by
              rw [hfr2]
              exact nodup_snoc (hnd.erase _) (fun hx => hp (List.mem_of_mem_erase hx)))
            (by
              rw [hfr2, hfc2, length_erase_snoc hrmem]
              omega)
            (by rw [hfc2]; exact hc)
          rw [hfr2, hfc2, hpf2, toFinset_erase_snoc _ _ _ hnd] at hrec
          rw [opt_cons_full _ _ _ _ hpn (by omega)]
          omega
        · have hfr2 : (s.access_page p σ).1.frames = s.frames.tail ++ [p] := by
            simp only [Optimal.access_page, if_neg hp, if_neg hlt, if_neg hfut]
          have hfc2 : (s.access_page p σ).1.frame_count = s.frame_count := by
            simp only [Optimal.access_page, if_neg hp, if_neg hlt, if_neg hfut]
          have hpf2 : (s.access_page p σ).1.page_faults = s.page_faults + 1 := by
            simp only [Optimal.access_page, if_neg hp, if_neg hlt, if_neg hfut]
          have hrmem := headI_mem hne
          have hfarr : ∀ x ∈ s.frames.toFinset,
              nuLe (idxOf? x σ) (idxOf? s.frames.headI σ) := by
            push_neg at hfut
            intro x hx
            rw [hfut]
            exact trivial
          have hbound := opt_evict_bound s.frame_count hc σ s.frames.toFinset p
            s.frames.headI (List.mem_toFinset.2 hrmem) hpn (by omega) hfarr
          have hrec := ih (s.access_page p σ).1
            (by
              rw [hfr2, tail_eq_erase_headI hne]
              exact nodup_snoc (hnd.erase _) (fun hx => hp (List.mem_of_mem_erase hx)))
            (by
              rw [hfr2, hfc2, tail_eq_erase_headI hne, length_erase_snoc hrmem]
              omega)
            (by rw [hfc2]; exact hc)
          rw [hfr2, hfc2, hpf2, tail_eq_erase_headI hne,
            toFinset_erase_snoc _ _ _ hnd] at hrec
          rw [opt_cons_full _ _ _ _ hpn (by omega)]
          omega

/-- Claim C4: for every finite access sequence and every capacity c ≥ 1,
the Optimal policy given the full remaining future as lookahead at each
access never faults more than FIFO, LRU or LFU on the same sequence. -/
theorem c4_theorem (c : Nat) (hc : 1 ≤ c) (σ : List Nat) :
    (runFuture (.optimal (Optimal.init c)) σ).page_faults
        ≤ (runFuture (.fifo (FIFO.init c)) σ).page_faults ∧
    (runFuture (.optimal (Optimal.init c)) σ).page_faults
        ≤ (runFuture (.lru (LRU.init c)) σ).page_faults ∧
    (runFuture (.optimal (Optimal.init c)) σ).page_faults
        ≤ (runFuture (.lfu (LFU.init c)) σ).page_faults := by
  have hA := runFuture_optimal_le_opt σ (Optimal.init c) List.nodup_nil (Nat.zero_le c) hc
  rw [show (Optimal.init c).page_faults = 0 from rfl,
    show (Optimal.init c).frames.toFinset = (∅ : Finset Nat) from rfl,
    show (Optimal.init c).frame_count = c from rfl] at hA
  have hF := opt_le_runFuture σ (.fifo (FIFO.init c))
    ⟨rfl, List.nodup_nil, Nat.zero_le c⟩ hc
  have hL := opt_le_runFuture σ (.lru (LRU.init c))
    ⟨fun x => Iff.rfl, List.nodup_nil, List.nodup_nil, Nat.zero_le c⟩ hc
  have hU := opt_le_runFuture σ (.lfu (LFU.init c))
    ⟨List.nodup_nil, Nat.zero_le c⟩ hc
  rw [show (Policy.fifo (FIFO.init c)).page_faults = 0 from rfl,
    show (Policy.fifo (FIFO.init c)).frames.toFinset = (∅ : Finset Nat) from rfl,
    show (Policy.fifo (FIFO.init c)).frame_count = c from rfl] at hF
  rw [show (Policy.lru (LRU.init c)).page_faults = 0 from rfl,
    show (Policy.lru (LRU.init c)).frames.toFinset = (∅ : Finset Nat) from rfl,
    show (Policy.lru (LRU.init c)).frame_count = c from rfl] at hL
  rw [show (Policy.lfu (LFU.init c)).page_faults = 0 from rfl,
    show (Policy.lfu (LFU.init c)).frames.toFinset = (∅ : Finset Nat) from rfl,
    show (Policy.lfu (LFU.init c)).frame_count = c from rfl] at hU
  omega

/-- Claim C4 witness at capacity 1 on a concrete sequence. -/
theorem c4_witness :
    (1 ≤ 1) ∧
    ((runFuture (.optimal (Optimal.init 1)) [1, 2, 1]).page_faults
        ≤ (runFuture (.fifo (FIFO.init 1)) [1, 2, 1]).page_faults ∧
      (runFuture (.optimal (Optimal.init 1)) [1, 2, 1]).page_faults
        ≤ (runFuture (.lru (LRU.init 1)) [1, 2, 1]).page_faults ∧
      (runFuture (.optimal (Optimal.init 1)) [1, 2, 1]).page_faults
        ≤ (runFuture (.lfu (LFU.init 1)) [1, 2, 1]).page_faults) :=
  ⟨Nat.le_refl 1, c4_theorem 1 (Nat.le_refl 1) [1, 2, 1]⟩

end MemSync
